import Mathlib

/-!
# JSONDb: a file-backed JSON document store

A shallow embedding of `main.go` (package `main` of Creatorjason/JSONDb) and
theorems about its driver: `New`, `Write`, `Read`, `ReadAll`, `Delete` and
`getOrCreateMutex`.

* Path strings are lists of characters; `filepath.Clean` and `filepath.Join` are
  embedded for Unix paths (separator `/`).
* The file system is a tree of directories and regular files below the root `/`,
  together with the working directory of the process.  There are no symbolic
  links, no permissions and no special files, so a system call fails only for
  structural reasons (`ENOENT`, `ENOTDIR`, `EISDIR`, ...).  A path string is
  resolved component by component from `/` or from the working directory; the
  driver hands only cleaned paths (with a suffix appended) to the system, in which
  `..` occurs only at the start.
* The methods of `Driver` are functions from the driver and the file system to
  the returned error and the driver and file system afterwards.  Locking and
  unlocking a mutex leaves no trace in a sequential run and is not represented;
  the lock registry is.
* The encoder and decoder of `encoding/json` are a parameter (`Codec`); the codec
  of a `json.Number` value is given as an instance.
-/

namespace JSONDb

/-! ## Strings and paths -/

/-- A Go string. -/
abbrev Str := List Char

/-- An absolute, resolved path: the components below the file-system root. -/
abbrev Path := List Str

/-- The string `".json"`. -/
def extJson : Str := ['.', 'j', 's', 'o', 'n']

/-- The string `".tmp"`. -/
def extTmp : Str := ['.', 't', 'm', 'p']

/-- The string `"."`. -/
def dot : Str := ['.']

/-- The string `".."`. -/
def dotdot : Str := ['.', '.']

/-- Cut a path string at every separator `/`. -/
def splitSlash : Str → List Str
  | [] => [[]]
  | c :: cs =>
    if c = '/' then [] :: splitSlash cs
    else match splitSlash cs with
      | [] => [[c]]
      | h :: t => (c :: h) :: t

/-- Glue components with the separator `/` (`strings.Join(elem, "/")`). -/
def joinSlash : List Str → Str
  | [] => []
  | [a] => a
  | a :: b :: rest => a ++ '/' :: joinSlash (b :: rest)

/-- Whether a path string is rooted (starts with `/`). -/
def isRooted : Str → Bool
  | '/' :: _ => true
  | _ => false

/-- One step of the lexical processing of `filepath.Clean`: `out` is the stack of
components kept so far, most recent first. -/
def cleanStep (rooted : Bool) (out : List Str) (c : Str) : List Str :=
  if c = [] ∨ c = dot then out
  else if c = dotdot then
    match out with
    | [] => if rooted then [] else [dotdot]
    | top :: below => if top = dotdot then dotdot :: top :: below else below
  else c :: out

/-- The function `filepath.Clean` for Unix paths: empty components and `.` are
dropped, an inner `..` cancels the component before it, a `..` at the start of a
rooted path is dropped, and the empty result is written `.`. -/
def clean (s : Str) : Str :=
  let body := joinSlash ((splitSlash s).foldl (cleanStep (isRooted s)) []).reverse
  if isRooted s then '/' :: body
  else if body = [] then dot else body

/-- The function `filepath.Join`: the elements from the first non-empty one on
are glued with `/` and cleaned; when every element is empty the result is the
empty string. -/
def join : List Str → Str
  | [] => []
  | e :: rest => if e = [] then join rest else clean (joinSlash (e :: rest))

/-- One step of path resolution by the operating system. -/
def resolveStep (at_ : Path) (c : Str) : Path :=
  if c = [] ∨ c = dot then at_
  else if c = dotdot then at_.dropLast
  else at_ ++ [c]

/-- The absolute path a path string names, seen from the working directory `cwd`. -/
def resolve (cwd : Path) (s : Str) : Path :=
  (splitSlash s).foldl resolveStep (if isRooted s then [] else cwd)

/-! ## The file system -/

/-- A node of the file-system tree: a regular file with its contents, or a
directory with its entries. -/
inductive Node where
  | file (data : Str)
  | dir (entries : List (Str × Node))

/-- The empty regular file, as a default node. -/
instance nodeInhabited : Inhabited Node := ⟨.file []⟩

/-- The entries of a directory: names with the nodes they name. -/
abbrev Entries := List (Str × Node)

/-- What `os.Stat` reports of a node: regular file (with the contents a read
would return) or directory. -/
inductive Kind where
  | file (data : Str)
  | dir
  deriving DecidableEq, Repr

/-- The kind of a node. -/
def Node.kind : Node → Kind
  | .file d => .file d
  | .dir _ => .dir

/-- Error numbers of the system calls. -/
inductive Errno where
  | ENOENT | ENOTDIR | EISDIR | EEXIST | ENOTEMPTY | EINVAL | EBUSY
  deriving DecidableEq, Repr

/-- Equality of results of system calls is decidable. -/
instance exceptDecEq {ε α : Type} [DecidableEq ε] [DecidableEq α] :
    DecidableEq (Except ε α)
  | .ok a, .ok b => if h : a = b then isTrue (by rw [h]) else isFalse (by intro h'; cases h'; exact h rfl)
  | .error a, .error b =>
    if h : a = b then isTrue (by rw [h]) else isFalse (by intro h'; cases h'; exact h rfl)
  | .ok _, .error _ => isFalse (by intro h; cases h)
  | .error _, .ok _ => isFalse (by intro h; cases h)

/-- The entry called `name`, if there is one. -/
def lookupE : Entries → Str → Option Node
  | [], _ => none
  | (k, v) :: rest, name => if k = name then some v else lookupE rest name

/-- Bind `name` to `node`, replacing the entry of that name if there is one. -/
def setE : Entries → Str → Node → Entries
  | [], name, node => [(name, node)]
  | (k, v) :: rest, name, node =>
    if k = name then (k, node) :: rest else (k, v) :: setE rest name node

/-- Remove the entry called `name`. -/
def eraseE : Entries → Str → Entries
  | [], _ => []
  | (k, v) :: rest, name => if k = name then eraseE rest name else (k, v) :: eraseE rest name

/-- Walk down from a directory along a path, as the kernel does: a missing
component is `ENOENT`, a regular file in the middle of the path is `ENOTDIR`. -/
def getIn (es : Entries) : Path → Except Errno Node
  | [] => .ok (.dir es)
  | c :: rest =>
    match lookupE es c with
    | none => .error .ENOENT
    | some (.file d) => if rest = [] then .ok (.file d) else .error .ENOTDIR
    | some (.dir sub) => getIn sub rest

/-- Put `node` at a path whose parent directory exists, replacing what is there. -/
def putIn (es : Entries) (node : Node) : Path → Except Errno Entries
  | [] => .error .EISDIR
  | [c] => .ok (setE es c node)
  | c :: c' :: rest =>
    match lookupE es c with
    | none => .error .ENOENT
    | some (.file _) => .error .ENOTDIR
    | some (.dir sub) =>
      match putIn sub node (c' :: rest) with
      | .error e => .error e
      | .ok sub' => .ok (setE es c (.dir sub'))

/-- Take away whatever is at a path (with everything beneath it); nothing
happens when the path names nothing. -/
def dropIn (es : Entries) : Path → Entries
  | [] => es
  | [c] => eraseE es c
  | c :: c' :: rest =>
    match lookupE es c with
    | some (.dir sub) => setE es c (.dir (dropIn sub (c' :: rest)))
    | _ => es

/-- Create the directories of a path that are missing (`mkdir -p`). -/
def mkdirAllIn (es : Entries) : Path → Except Errno Entries
  | [] => .ok es
  | c :: rest =>
    match lookupE es c with
    | none =>
      match mkdirAllIn [] rest with
      | .error e => .error e
      | .ok sub => .ok (setE es c (.dir sub))
    | some (.file _) => .error .ENOTDIR
    | some (.dir sub) =>
      match mkdirAllIn sub rest with
      | .error e => .error e
      | .ok sub' => .ok (setE es c (.dir sub'))

/-- The state of the file system: the working directory of the process and the
entries of the root directory `/`. -/
structure FS where
  cwd : Path
  root : Entries

/-- The node a path string names. -/
def FS.node (fs : FS) (s : Str) : Except Errno Node :=
  if s = [] then .error .ENOENT else getIn fs.root (resolve fs.cwd s)

/-- The function `os.Stat`. -/
def osStat (fs : FS) (s : Str) : Except Errno Kind :=
  match fs.node s with
  | .error e => .error e
  | .ok n => .ok n.kind

/-- The function `os.MkdirAll`: succeeds when the path is a directory already,
fails with `ENOTDIR` when a regular file is in the way, and creates the missing
directories otherwise. -/
def osMkdirAll (fs : FS) (s : Str) : Except Errno FS :=
  if s = [] then .error .ENOENT
  else match mkdirAllIn fs.root (resolve fs.cwd s) with
    | .error e => .error e
    | .ok es => .ok { fs with root := es }

/-- The function `ioutil.WriteFile`: creates or truncates the regular file at the
path and writes the data; the parent directory must exist and the path must not
name a directory. -/
def writeFile (fs : FS) (s : Str) (data : Str) : Except Errno FS :=
  if s = [] then .error .ENOENT
  else match getIn fs.root (resolve fs.cwd s) with
    | .ok (.dir _) => .error .EISDIR
    | _ =>
      match putIn fs.root (.file data) (resolve fs.cwd s) with
      | .error e => .error e
      | .ok es => .ok { fs with root := es }

/-- The function `ioutil.ReadFile`. -/
def readFile (fs : FS) (s : Str) : Except Errno Str :=
  match fs.node s with
  | .error e => .error e
  | .ok (.dir _) => .error .EISDIR
  | .ok (.file d) => .ok d

/-- The test `endsWithDot` of `os.RemoveAll`: the path is `.` or ends in `/.`. -/
def endsWithDot (s : Str) : Bool :=
  s = dot || (s.reverse.take 2 == ['.', '/'])

/-- Whether the last component of a path string is `..`. -/
def lastIsDotDot (s : Str) : Bool :=
  (splitSlash s).getLast? = some dotdot

/-- The function `os.Remove`: unlinks a regular file or removes an empty
directory; the system refuses to remove `/`, `.` and `..`. -/
def osRemove (fs : FS) (s : Str) : Except Errno FS :=
  match fs.node s with
  | .error e => .error e
  | .ok (.file _) => .ok { fs with root := dropIn fs.root (resolve fs.cwd s) }
  | .ok (.dir es) =>
    if resolve fs.cwd s = [] then .error .EBUSY
    else if endsWithDot s then .error .EINVAL
    else if lastIsDotDot s then .error .ENOTEMPTY
    else if es.isEmpty then .ok { fs with root := dropIn fs.root (resolve fs.cwd s) }
    else .error .ENOTEMPTY

/-- The function `os.RemoveAll`: the empty path and a path that names nothing
succeed without effect, a path ending in a dot is refused with `EINVAL`, and
otherwise the path is removed with everything beneath it.  The directories `/`
and `..` themselves cannot be removed: their contents go and the call reports the
error of the final `rmdir`. -/
def osRemoveAll (fs : FS) (s : Str) : Option Errno × FS :=
  if s = [] then (none, fs)
  else if endsWithDot s then (some .EINVAL, fs)
  else match getIn fs.root (resolve fs.cwd s) with
    | .error .ENOENT => (none, fs)
    | .error e => (some e, fs)
    | .ok (.file _) => (none, { fs with root := dropIn fs.root (resolve fs.cwd s) })
    | .ok (.dir _) =>
      if resolve fs.cwd s = [] then (some .EBUSY, { fs with root := [] })
      else if lastIsDotDot s then
        (some .ENOTEMPTY,
          { fs with root := match putIn fs.root (.dir []) (resolve fs.cwd s) with
              | .ok es => es
              | .error _ => fs.root })
      else (none, { fs with root := dropIn fs.root (resolve fs.cwd s) })

/-- The function `os.Rename`.  When the new path is an existing directory, Go
reports the error of the old path if that is missing and `EEXIST` otherwise
(unless both paths name the same directory under different spellings).
Otherwise the system call moves the node at the old path to the new path,
replacing a regular file there. -/
def osRename (fs : FS) (old new : Str) : Except Errno FS :=
  match fs.node new with
  | .ok (.dir _) =>
    match fs.node old with
    | .error e => .error e
    | .ok _ =>
      if old ≠ new ∧ resolve fs.cwd old = resolve fs.cwd new then .ok fs else .error .EEXIST
  | .error .ENOTDIR => .error .ENOTDIR
  | target =>
    match fs.node old with
    | .error e => .error e
    | .ok n =>
      if new = [] then .error .ENOENT
      else if resolve fs.cwd old = resolve fs.cwd new then .ok fs
      else if resolve fs.cwd old <+: resolve fs.cwd new then .error .EINVAL
      else match n, target with
        | .dir _, .ok (.file _) => .error .ENOTDIR
        | _, _ =>
          match putIn (dropIn fs.root (resolve fs.cwd old)) n (resolve fs.cwd new) with
          | .error e => .error e
          | .ok es => .ok { fs with root := es }

/-- Lexicographic order of strings, by code point. -/
def strLe : Str → Str → Bool
  | [], _ => true
  | _ :: _, [] => false
  | a :: as, b :: bs => a.toNat < b.toNat || (a.toNat == b.toNat && strLe as bs)

/-- The names of the entries of a directory, each once, sorted. -/
def entryNames (es : Entries) : List Str :=
  ((es.map Prod.fst).dedup).insertionSort (fun a b => strLe a b = true)

/-- The function `ioutil.ReadDir`: the entries of a directory sorted by file name
(only their names are used by the callers). -/
def readDir (fs : FS) (s : Str) : Except Errno (List Str) :=
  match fs.node s with
  | .error e => .error e
  | .ok (.file _) => .error .ENOTDIR
  | .ok (.dir es) => .ok (entryNames es)

/-! ## The driver -/

/-- A value of the interface `Logger`: the console logger of `lumber`, or a logger
supplied by the caller. -/
inductive Logger where
  | console
  | custom (id : Nat)
  deriving DecidableEq, Repr

/-- The struct `Options`: the embedded `Logger`, `none` for the nil interface. -/
structure Options where
  logger : Option Logger
  deriving DecidableEq, Repr

/-- The errors the driver returns: the three `fmt.Errorf` messages, an error of a
system call, and the errors of the JSON encoder and decoder. -/
inductive Error where
  | missingCollection
  | missingDocument
  | unableToFind
  | sys (e : Errno)
  | marshal
  | unmarshal
  deriving DecidableEq, Repr

/-- The struct `Driver`.  A `*sync.Mutex` is the number of its allocation;
`allocated` counts the mutexes allocated so far, so that `&sync.Mutex{}` yields a
pointer different from all earlier ones. -/
structure Driver where
  mutexes : List (Str × Nat)
  dir : Str
  log : Option Logger
  allocated : Nat
  deriving DecidableEq, Repr

/-- The map lookup `d.mutexes[collection]`. -/
def mutexOf : List (Str × Nat) → Str → Option Nat
  | [], _ => none
  | (k, m) :: rest, c => if k = c then some m else mutexOf rest c

/-- The method `getOrCreateMutex`. -/
def Driver.getOrCreateMutex (d : Driver) (collection : Str) : Nat × Driver :=
  match mutexOf d.mutexes collection with
  | some m => (m, d)
  | none =>
    (d.allocated,
      { d with mutexes := d.mutexes ++ [(collection, d.allocated)],
               allocated := d.allocated + 1 })

/-- What a call of `New` does: it returns, or it panics (nil dereference). -/
inductive Outcome (α : Type) where
  | ret (a : α)
  | panic

/-- The function `New`: the driver, the error and the file system afterwards. -/
def New (fs : FS) (dir : Str) (opts : Option Options) :
    Outcome (Driver × Option Error × FS) :=
  let dir := clean dir
  let opt : Options := match opts with
    | some o => o
    | none => { logger := none }
  let opt : Options := if opt.logger ≠ none then { logger := some .console } else opt
  let driver : Driver := { dir := dir, log := opt.logger, mutexes := [], allocated := 0 }
  match osStat fs dir with
  | .error .ENOENT =>
    match opt.logger with
    | none => .panic
    | some _ => .ret (driver, none, fs)
  | _ =>
    match osMkdirAll fs dir with
    | .error e => .ret (driver, some (.sys e), fs)
    | .ok fs' => .ret (driver, none, fs')

/-- The function `stat`: `os.Stat` of the path and, when that does not exist,
of the path with `.json` appended. -/
def stat (fs : FS) (path : Str) : Except Errno Kind :=
  match osStat fs path with
  | .error .ENOENT => osStat fs (path ++ extJson)
  | r => r

/-- The JSON encoder and decoder for the values of type `V`:
`json.MarshalIndent(v, "", "\t")`, which may refuse a value, and
`json.Unmarshal(b, &out)`, which yields the new contents of `out` and whether it
succeeded. -/
structure Codec (V : Type) where
  marshalIndent : V → Option Str
  unmarshal : Str → V → V × Bool

/-- The bytes `Write` puts in the file: the encoding and one newline. -/
def encoding {V : Type} (cd : Codec V) (v : V) : Option Str :=
  (cd.marshalIndent v).map (fun b => b ++ ['\n'])

/-- The path `fnlPath` of `Write`. -/
def fnlPath (d : Driver) (collection document : Str) : Str :=
  join [join [d.dir, collection], document ++ extJson]

/-- The method `Write`. -/
def Driver.Write {V : Type} (cd : Codec V) (d : Driver) (fs : FS)
    (collection document : Str) (v : V) : Option Error × Driver × FS :=
  if collection = [] then (some .missingCollection, d, fs)
  else if document = [] then (some .missingDocument, d, fs)
  else
    let d := (d.getOrCreateMutex collection).2
    let dir := join [d.dir, collection]
    let fnlPath := join [dir, document ++ extJson]
    let tmpPath := fnlPath ++ extTmp
    match osMkdirAll fs dir with
    | .error e => (some (.sys e), d, fs)
    | .ok fs1 =>
      match cd.marshalIndent v with
      | none => (some .marshal, d, fs1)
      | some b =>
        let b := b ++ ['\n']
        match writeFile fs1 tmpPath b with
        | .error e => (some (.sys e), d, fs1)
        | .ok fs2 =>
          match osRename fs2 tmpPath fnlPath with
          | .error e => (some (.sys e), d, fs2)
          | .ok fs3 => (none, d, fs3)

/-- The loop of `ReadAll` over the directory listing. -/
def readAllLoop (fs : FS) (dir : Str) : List Str → List Str → Except Errno (List Str)
  | [], records => .ok records
  | name :: files, records =>
    match readFile fs (join [dir, name]) with
    | .error e => .error e
    | .ok b => readAllLoop fs dir files (records ++ [b])

/-- The method `ReadAll`. -/
def Driver.ReadAll (d : Driver) (fs : FS) (collection : Str) : Except Error (List Str) :=
  if collection = [] then .error .missingCollection
  else
    let dir := join [d.dir, collection]
    match stat fs dir with
    | .error e => .error (.sys e)
    | .ok _ =>
      let files := match readDir fs dir with
        | .ok names => names
        | .error _ => []
      match readAllLoop fs dir files [] with
      | .error e => .error (.sys e)
      | .ok records => .ok records

/-- The method `Read`: the error and the contents of `v` afterwards. -/
def Driver.Read {V : Type} (cd : Codec V) (d : Driver) (fs : FS)
    (collection document : Str) (v : V) : Option Error × V :=
  if collection = [] then (some .missingCollection, v)
  else if document = [] then (some .missingDocument, v)
  else
    let record := join [d.dir, collection, document]
    match stat fs record with
    | .error e => (some (.sys e), v)
    | .ok _ =>
      match readFile fs (record ++ extJson) with
      | .error e => (some (.sys e), v)
      | .ok b =>
        match cd.unmarshal b v with
        | (v', true) => (none, v')
        | (v', false) => (some .unmarshal, v')

/-- The method `Delete`. -/
def Driver.Delete (d : Driver) (fs : FS) (collection document : Str) :
    Option Error × Driver × FS :=
  let d := (d.getOrCreateMutex collection).2
  let path := join [collection, document]
  let dir := join [d.dir, path]
  match stat fs dir with
  | .error _ => (some .unableToFind, d, fs)
  | .ok .dir =>
    match osRemoveAll fs dir with
    | (none, fs') => (none, d, fs')
    | (some e, fs') => (some (.sys e), d, fs')
  | .ok (.file _) =>
    match osRemove fs (dir ++ extJson) with
    | .error e => (some (.sys e), d, fs)
    | .ok fs' => (none, d, fs')

/-! ## Sequences of calls -/

/-- A call of a method of the driver. -/
inductive Op (V : Type) where
  | write (collection document : Str) (v : V)
  | read (collection document : Str) (out : V)
  | readAll (collection : Str)
  | delete (collection document : Str)
  | getOrCreateMutex (collection : Str)

/-- The driver and the file system after one call. -/
def Op.step {V : Type} (cd : Codec V) (st : Driver × FS) : Op V → Driver × FS
  | .write c doc v => (st.1.Write cd st.2 c doc v).2
  | .read _ _ _ => st
  | .readAll _ => st
  | .delete c doc => (st.1.Delete st.2 c doc).2
  | .getOrCreateMutex c => ((st.1.getOrCreateMutex c).2, st.2)

/-- The driver and the file system after a sequence of calls. -/
def run {V : Type} (cd : Codec V) (st : Driver × FS) (ops : List (Op V)) : Driver × FS :=
  ops.foldl (Op.step cd) st

/-- The driver `New` builds for a cleaned root path. -/
def freshDriver (dir : Str) (log : Option Logger) : Driver :=
  { mutexes := [], dir := dir, log := log, allocated := 0 }

/-! ## Example data -/

/-- A file system with an empty root directory `/` as working directory. -/
def emptyFS : FS := { cwd := [], root := [] }

/-- A file system with the empty directory `/w` as working directory. -/
def homeFS : FS := { cwd := ["w".toList], root := [("w".toList, .dir [])] }

/-- A codec for strings as values: encoding is the identity and decoding strips
the final newline. -/
def strCodec : Codec Str :=
  { marshalIndent := fun v => some v, unmarshal := fun b _ => (b.dropLast, true) }

/-- What is observable of the result of `New`: the error and `os.Stat` of a path. -/
def newView (s : Str) : Outcome (Driver × Option Error × FS) →
    Option (Driver × Option Error × Except Errno Kind)
  | .panic => none
  | .ret (d, e, fs) => some (d, e, osStat fs s)

/-! ## Auxiliary notions for the statements -/

/-- The registry is consistent with the allocator: every registered mutex was
allocated, and no mutex is registered under two names. -/
def RegistryOk (d : Driver) : Prop :=
  (∀ c m, mutexOf d.mutexes c = some m → m < d.allocated) ∧
  (∀ c c' m, mutexOf d.mutexes c = some m → mutexOf d.mutexes c' = some m → c = c')

/-- A plain file name: not empty, without separator, and neither `.` nor `..`. -/
def PlainName (n : Str) : Prop := n ≠ [] ∧ '/' ∉ n ∧ n ≠ dot ∧ n ≠ dotdot

/-- Being a plain name is decidable. -/
instance plainNameDecidable (n : Str) : Decidable (PlainName n) := by
  unfold PlainName; infer_instance

/-- The components `filepath.Clean` keeps, most recent first. -/
def cleanStack (s : Str) : List Str :=
  (splitSlash s).foldl (cleanStep (isRooted s)) []

/-- A component that `filepath.Clean` keeps: not empty, not `.`, without separator. -/
def Kept (x : Str) : Prop := x ≠ [] ∧ x ≠ dot ∧ '/' ∉ x

/-- What `os.Stat` reports at an absolute path below the entries `es`. -/
def kindAt (es : Entries) (p : Path) : Except Errno Kind :=
  match getIn es p with
  | .error e => .error e
  | .ok n => .ok n.kind

/-- The contents of the regular file called `n` among the entries `es`. -/
def contentsOf (es : Entries) (n : Str) : Str :=
  match lookupE es n with
  | some (.file d) => d
  | _ => []

/-- The driver of `main`: `New("./", nil)`. -/
def dotDriver : Driver := freshDriver (clean "./".toList) none

/-- Whether the entry called `n` among `es` is a regular file. -/
def regularAt (es : Entries) (n : Str) : Bool :=
  match lookupE es n with
  | some (.file _) => true
  | _ => false

/-- The path `dir` of `Delete`: the target of the call. -/
def deleteTarget (d : Driver) (collection document : Str) : Str :=
  join [d.dir, join [collection, document]]

/-- A driver with the rooted path `/w` as root. -/
def rootedDriver : Driver := freshDriver "/w".toList none

/-- A file system in which the store `/w` has the collection `c` with the document
`x`, stored in `/w/c/x.json`. -/
def sampleFS : FS :=
  { cwd := ["w".toList],
    root := [("w".toList, .dir [("c".toList, .dir [("x.json".toList, .file "V\n".toList)])])] }

/-- A file system in which the store `/w` has the document `x` of the collection
`c` in `/w/c/x.json` and the document `y` of the collection `c/x` in
`/w/c/x/y.json`. -/
def nestedFS : FS :=
  { cwd := ["w".toList],
    root := [("w".toList, .dir [("c".toList, .dir
      [("x.json".toList, .file "V\n".toList),
       ("x".toList, .dir [("y.json".toList, .file "W\n".toList)])])])] }

/-- The file-system states a call of `Write` goes through: the state before the
call, the state after `os.MkdirAll`, the state after `ioutil.WriteFile` of the
temporary file and the state after `os.Rename`, as far as the steps succeed.  A
call that stops with an error after a step leaves the state after that step. -/
def Driver.writeStates {V : Type} (cd : Codec V) (d : Driver) (fs : FS)
    (collection document : Str) (v : V) : List FS :=
  if collection = [] then [fs]
  else if document = [] then [fs]
  else
    let dir := join [d.dir, collection]
    let fnlPath := join [dir, document ++ extJson]
    let tmpPath := fnlPath ++ extTmp
    match osMkdirAll fs dir with
    | .error _ => [fs]
    | .ok fs1 =>
      fs :: fs1 ::
        match cd.marshalIndent v with
        | none => []
        | some b =>
          match writeFile fs1 tmpPath (b ++ ['\n']) with
          | .error _ => []
          | .ok fs2 =>
            fs2 ::
              match osRename fs2 tmpPath fnlPath with
              | .error _ => []
              | .ok fs3 => [fs3]

/-! ## The JSON codec of `json.Number` -/

/-- Whether a byte is a decimal digit. -/
def isDigit (c : Char) : Bool := 48 ≤ c.toNat && c.toNat ≤ 57

/-- Skip the digits at the start of a string. -/
def dropDigits : Str → Str
  | [] => []
  | c :: r => if isDigit c then dropDigits r else c :: r

/-- The integer part of a number literal (`0`, or a digit from 1 to 9 followed by
digits): what is left of the string after it. -/
def numInt : Str → Option Str
  | [] => none
  | c :: r =>
    if c = '0' then some r
    else if 49 ≤ c.toNat && c.toNat ≤ 57 then some (dropDigits r)
    else none

/-- The optional fraction of a number literal: `.` followed by one or more digits. -/
def numFrac : Str → Str
  | '.' :: c :: r => if isDigit c then dropDigits r else '.' :: c :: r
  | s => s

/-- The optional exponent of a number literal: `e` or `E`, an optional sign, and
digits. -/
def numExp : Str → Option Str
  | e :: c :: r =>
    if e = 'e' ∨ e = 'E' then
      if c = '+' ∨ c = '-' then (if r = [] then none else some (dropDigits r))
      else some (dropDigits (c :: r))
    else some (e :: c :: r)
  | s => some s

/-- The function `isValidNumber` of `encoding/json`. -/
def isValidNumber (s : Str) : Bool :=
  match s with
  | [] => false
  | c :: r =>
    let s1 := if c = '-' then r else c :: r
    match numInt s1 with
    | none => false
    | some s2 =>
      match numExp (numFrac s2) with
      | none => false
      | some s3 => s3.isEmpty

/-- Whether a byte is JSON white space. -/
def isSpace (c : Char) : Bool := c = ' ' || c = '\t' || c = '\r' || c = '\n'

/-- Strip the JSON white space around a text. -/
def trimSpace (s : Str) : Str :=
  ((s.dropWhile isSpace).reverse.dropWhile isSpace).reverse

/-- The codec of `encoding/json` for a value of type `json.Number`: the encoder
writes the number literal, `0` for the empty `Number`, and refuses a string that
is not a number literal; the decoder stores the number literal it reads.  Only
number literals are modelled as input of the decoder; any other text counts as a
decoding error. -/
def numberCodec : Codec Str :=
  { marshalIndent := fun n =>
      let s := if n = [] then ['0'] else n
      if isValidNumber s then some s else none
    unmarshal := fun b out =>
      if isValidNumber (trimSpace b) then (trimSpace b, true) else (out, false) }

/-- Whether an error says that something does not exist: the message `unable to
find the file` of `Delete`, or `ENOENT` from a system call. -/
def Error.isNotFound : Error → Bool
  | .unableToFind => true
  | .sys .ENOENT => true
  | _ => false

/-- Whether a call, if it is a `Write`, has plain names as collection and document. -/
def Op.plainWrite {V : Type} : Op V → Bool
  | .write c doc _ => decide (PlainName c) && decide (PlainName doc)
  | _ => true

/-- Whether a call is a `Write` of the document `doc` of the collection `c`. -/
def Op.isWriteOf {V : Type} (c doc : Str) : Op V → Bool
  | .write c' doc' _ => decide (c' = c) && decide (doc' = doc)
  | _ => false

/-- The shape of a store with root `r` in which the documents `w` have been
written: two levels below the root there is no directory and nothing whose
lookup fails with `ENOTDIR`, and whatever is there under a name `doc.json`
belongs to a written document `doc`. -/
def StoreInv (r : Path) (w : Str → Str → Prop) (es : Entries) : Prop :=
  ∀ c n, kindAt es (r ++ [c, n]) ≠ .ok .dir ∧
    kindAt es (r ++ [c, n]) ≠ .error .ENOTDIR ∧
    ∀ doc k, n = doc ++ extJson → kindAt es (r ++ [c, n]) = .ok k → w c doc

/-- The shape of the stack of `filepath.Clean`: kept components, with `..` only at
the bottom of the stack of a path that is not rooted. -/
def StackCanon (rooted : Bool) : List Str → Prop
  | [] => True
  | top :: below =>
    Kept top ∧ (top = dotdot → rooted = false ∧ ∀ x ∈ below, x = dotdot) ∧
      StackCanon rooted below

/-- A file system in which the store `/w` holds one regular file `f` and no
collection. -/
def flatFS : FS :=
  { cwd := ["w".toList], root := [("w".toList, .dir [("f".toList, .file "1".toList)])] }

/-- The loop of `main` over the records to store, `Write` being called for the
documents of one collection in turn; the run stops at the first error so that a
result without error says that every `Write` returned without error. -/
def Driver.writeMany {V : Type} (cd : Codec V) (d : Driver) (fs : FS) (collection : Str) :
    List (Str × V) → Option Error × Driver × FS
  | [] => (none, d, fs)
  | (document, v) :: rest =>
    match d.Write cd fs collection document v with
    | (none, d', fs') => Driver.writeMany cd d' fs' collection rest
    | (some e, d', fs') => (some e, d', fs')

/-- A directory path below which there are only regular files with names ending
in `.json`, if anything. -/
def DirJson (es : Entries) (p : Path) : Prop :=
  ∀ n, kindAt es (p ++ [n]) = .error .ENOENT ∨
    ∃ b doc, n = doc ++ extJson ∧ kindAt es (p ++ [n]) = .ok (.file b)

/-! ## Facts about paths -/


theorem splitSlash_ne_nil (s : Str) : splitSlash s ≠ [] := by
  cases s with
  | nil => simp [splitSlash]
  | cons c cs =>
    simp only [splitSlash]
    split
    · simp
    · split <;> simp

theorem splitSlash_noslash (n : Str) (h : '/' ∉ n) : splitSlash n = [n] := by
  induction n with
  | nil => rfl
  | cons c cs ih =>
    have hc : c ≠ '/' := fun e => h (by simp [e])
    have hcs : '/' ∉ cs := fun e => h (by simp [e])
    simp [splitSlash, hc, ih hcs]

theorem splitSlash_append (a b : Str) :
    splitSlash (a ++ '/' :: b) = splitSlash a ++ splitSlash b := by
  induction a with
  | nil => simp [splitSlash]
  | cons c cs ih =>
    by_cases hc : c = '/'
    · simp [splitSlash, hc, ih]
    · rw [List.cons_append]
      simp only [splitSlash, hc, if_false]
      rw [ih]
      cases h : splitSlash cs with
      | nil => exact absurd h (splitSlash_ne_nil cs)
      | cons x xs => simp

theorem isRooted_append (a b : Str) (h : a ≠ []) : isRooted (a ++ b) = isRooted a := by
  cases a with
  | nil => exact absurd rfl h
  | cons c cs =>
    by_cases hc : c = '/'
    · simp [isRooted, hc]
    · cases b <;> simp [isRooted, hc]

theorem splitSlash_mem_noslash (s : Str) : ∀ c ∈ splitSlash s, '/' ∉ c := by
  induction s with
  | nil => simp [splitSlash]
  | cons a as ih =>
    by_cases ha : a = '/'
    · intro c hc
      simp only [splitSlash, ha, if_true, List.mem_cons] at hc
      rcases hc with rfl | hc
      · simp
      · exact ih c hc
    · intro c hc
      simp only [splitSlash, ha, if_false] at hc
      cases h : splitSlash as with
      | nil => exact absurd h (splitSlash_ne_nil as)
      | cons x xs =>
        rw [h] at hc ih
        simp only [List.mem_cons] at hc
        rcases hc with rfl | hc
        · have hx := ih x (by simp)
          simp only [List.mem_cons, not_or]
          exact ⟨fun e => ha e.symm, hx⟩
        · exact ih c (by simp [hc])

theorem cleanStep_kept (rooted : Bool) (out : List Str) (c : Str)
    (hout : ∀ x ∈ out, Kept x) (hc : '/' ∉ c) : ∀ x ∈ cleanStep rooted out c, Kept x := by
  unfold cleanStep
  by_cases h1 : c = [] ∨ c = dot
  · simpa [h1] using hout
  · simp only [h1, if_false]
    by_cases h2 : c = dotdot
    · simp only [h2, if_true]
      cases out with
      | nil =>
        cases rooted
        · intro x hx
          simp at hx
          subst hx
          exact ⟨by decide, by decide, by decide⟩
        · simp
      | cons top below =>
        by_cases h3 : top = dotdot
        · simp only [h3, if_true]
          intro x hx
          simp only [List.mem_cons] at hx
          rcases hx with rfl | hx
          · exact ⟨by decide, by decide, by decide⟩
          · exact hout x (by simp only [h3, List.mem_cons]; exact hx)
        · simp only [h3, if_false]
          intro x hx
          exact hout x (by simp [hx])
    · simp only [h2, if_false]
      intro x hx
      simp only [List.mem_cons] at hx
      rcases hx with rfl | hx
      · exact ⟨fun e => h1 (Or.inl e), fun e => h1 (Or.inr e), hc⟩
      · exact hout x hx

theorem foldl_cleanStep_kept (rooted : Bool) (comps : List Str) (out : List Str)
    (hout : ∀ x ∈ out, Kept x) (hc : ∀ c ∈ comps, '/' ∉ c) :
    ∀ x ∈ comps.foldl (cleanStep rooted) out, Kept x := by
  induction comps generalizing out with
  | nil => simpa using hout
  | cons c cs ih =>
    simp only [List.foldl_cons]
    exact ih _ (cleanStep_kept rooted out c hout (hc c (by simp)))
      (fun c' h' => hc c' (by simp [h']))

theorem cleanStack_kept (s : Str) : ∀ x ∈ cleanStack s, Kept x :=
  foldl_cleanStep_kept _ _ [] (by simp) (splitSlash_mem_noslash s)

theorem resolveStep_cleanStep (rooted : Bool) (p0 : Path) (hp : rooted = true → p0 = [])
    (out : List Str) (hout : ∀ x ∈ out, Kept x) (c : Str) :
    (cleanStep rooted out c).reverse.foldl resolveStep p0 =
      resolveStep (out.reverse.foldl resolveStep p0) c := by
  unfold cleanStep
  by_cases h1 : c = [] ∨ c = dot
  · simp [h1, resolveStep]
  · simp only [h1, if_false]
    by_cases h2 : c = dotdot
    · simp only [h2, if_true]
      cases out with
      | nil =>
        cases rooted
        · simp
        · simp [hp rfl, resolveStep, dotdot, dot]
      | cons top below =>
        by_cases h3 : top = dotdot
        · simp [h3]
        · have hk := hout top (by simp)
          simp only [h3, if_false, List.reverse_cons, List.foldl_append, List.foldl_cons,
            List.foldl_nil]
          have e1 : resolveStep (below.reverse.foldl resolveStep p0) top =
              below.reverse.foldl resolveStep p0 ++ [top] := by
            simp [resolveStep, hk.1, hk.2.1, h3]
          rw [e1]
          simp [resolveStep, dotdot, dot]
    · simp [h2]

theorem foldl_resolve_clean (rooted : Bool) (p0 : Path) (hp : rooted = true → p0 = [])
    (comps : List Str) (hc : ∀ c ∈ comps, '/' ∉ c) (out : List Str)
    (hout : ∀ x ∈ out, Kept x) :
    (comps.foldl (cleanStep rooted) out).reverse.foldl resolveStep p0 =
      comps.foldl resolveStep (out.reverse.foldl resolveStep p0) := by
  induction comps generalizing out with
  | nil => rfl
  | cons c cs ih =>
    simp only [List.foldl_cons]
    rw [ih (fun c' h' => hc c' (by simp [h'])) _
      (cleanStep_kept rooted out c hout (hc c (by simp))),
      resolveStep_cleanStep rooted p0 hp out hout c]

theorem splitSlash_joinSlash (comps : List Str) (hne : comps ≠ [])
    (hc : ∀ c ∈ comps, '/' ∉ c) : splitSlash (joinSlash comps) = comps := by
  induction comps with
  | nil => exact absurd rfl hne
  | cons a rest ih =>
    cases rest with
    | nil => simpa [joinSlash] using splitSlash_noslash a (hc a (by simp))
    | cons b rest' =>
      simp only [joinSlash]
      rw [splitSlash_append, splitSlash_noslash a (hc a (by simp)),
        ih (by simp) (fun c h => hc c (by simp [h]))]
      rfl

theorem joinSlash_head (a : Str) (rest : List Str) :
    ∃ t, joinSlash (a :: rest) = a ++ t := by
  cases rest with
  | nil => exact ⟨[], by simp [joinSlash]⟩
  | cons b rest' => exact ⟨'/' :: joinSlash (b :: rest'), by simp [joinSlash]⟩

theorem kept_not_rooted (a t : Str) (h : Kept a) : isRooted (a ++ t) = false ∧ a ++ t ≠ [] := by
  obtain ⟨h1, _, h3⟩ := h
  cases a with
  | nil => exact absurd rfl h1
  | cons c cs =>
    have hc : c ≠ '/' := fun e => h3 (by simp [e])
    constructor
    · simp only [List.cons_append]
      unfold isRooted
      split
      · next heq => simp at heq; exact absurd heq.1 hc
      · rfl
    · simp

theorem resolve_dot (cwd : Path) : resolve cwd dot = cwd := by
  simp [resolve, dot, splitSlash, isRooted, resolveStep]

/-- Cleaning a path string does not change what it names. -/
theorem resolve_clean (cwd : Path) (s : Str) : resolve cwd (clean s) = resolve cwd s := by
  have hk := cleanStack_kept s
  have hs : (cleanStack s).reverse.foldl resolveStep (if isRooted s then [] else cwd) =
      resolve cwd s := by
    have := foldl_resolve_clean (isRooted s) (if isRooted s then [] else cwd)
      (by intro h; simp [h]) (splitSlash s) (splitSlash_mem_noslash s) [] (by simp)
    simpa [cleanStack, resolve] using this
  rw [← hs]
  unfold clean
  simp only
  have hfold : (splitSlash s).foldl (cleanStep (isRooted s)) [] = cleanStack s := rfl
  rw [hfold]
  cases hrev : (cleanStack s).reverse with
  | nil =>
    cases hr : isRooted s
    · simp [joinSlash, resolve_dot]
    · simp [joinSlash, resolve, isRooted, splitSlash, resolveStep]
  | cons a rest =>
    have hk' : ∀ x ∈ a :: rest, Kept x := by
      intro x hx
      exact hk x (by rw [← List.mem_reverse, hrev]; exact hx)
    have hsplit : splitSlash (joinSlash (a :: rest)) = a :: rest :=
      splitSlash_joinSlash _ (by simp) (fun c h => (hk' c h).2.2)
    obtain ⟨t, ht⟩ := joinSlash_head a rest
    have hnr := kept_not_rooted a t (hk' a (by simp))
    rw [← ht] at hnr
    cases hr : isRooted s
    · simp only [hnr.2, if_false, Bool.false_eq_true]
      simp only [resolve, hnr.1, hsplit, if_false, Bool.false_eq_true]
    · simp only [if_true]
      simp only [resolve, isRooted, splitSlash, if_true, hsplit, List.foldl_cons]
      simp [resolveStep]

theorem clean_ne_nil (s : Str) : clean s ≠ [] := by
  unfold clean
  simp only
  cases isRooted s
  · simp only [Bool.false_eq_true, if_false]
    split
    · simp [dot]
    · assumption
  · simp

theorem resolve_slash_append (cwd : Path) (a b : Str) (ha : a ≠ []) :
    resolve cwd (a ++ '/' :: b) = (splitSlash b).foldl resolveStep (resolve cwd a) := by
  simp [resolve, splitSlash_append, isRooted_append a _ ha, List.foldl_append]

theorem join_two (a b : Str) (ha : a ≠ []) : join [a, b] = clean (a ++ '/' :: b) := by
  simp [join, ha, joinSlash]

theorem join_three (a b c : Str) (ha : a ≠ []) :
    join [a, b, c] = clean (a ++ '/' :: (b ++ '/' :: c)) := by
  simp [join, ha, joinSlash]

theorem join_two_ne_nil (a b : Str) (h : a ≠ [] ∨ b ≠ []) : join [a, b] ≠ [] := by
  by_cases ha : a = []
  · have hb : b ≠ [] := by rcases h with h | h; exact absurd ha h; exact h
    simp [join, ha, hb, joinSlash, clean_ne_nil]
  · rw [join_two a b ha]; exact clean_ne_nil _

theorem joinSlash_snoc_append (l : List Str) (n e : Str) :
    joinSlash (l ++ [n]) ++ e = joinSlash (l ++ [n ++ e]) := by
  induction l with
  | nil => simp [joinSlash]
  | cons a rest ih =>
    cases rest with
    | nil => simp [joinSlash]
    | cons b rest' =>
      have e1 : ∀ x : Str, a :: b :: rest' ++ [x] = a :: b :: (rest' ++ [x]) := fun _ => rfl
      have e2 : ∀ x : Str, b :: rest' ++ [x] = b :: (rest' ++ [x]) := fun _ => rfl
      rw [e1, e1, joinSlash, joinSlash, ← e2, ← e2, ← ih]
      simp

theorem joinSlash_snoc_ne_nil (l : List Str) (n : Str) (hn : n ≠ []) :
    joinSlash (l ++ [n]) ≠ [] := by
  cases l with
  | nil => simpa [joinSlash] using hn
  | cons a rest =>
    cases rest with
    | nil => simp [joinSlash]
    | cons b rest' =>
      have e1 : a :: b :: rest' ++ [n] = a :: b :: (rest' ++ [n]) := rfl
      rw [e1, joinSlash]
      simp

theorem plain_append (n e : Str) (hn : n ≠ []) (hs : '/' ∉ n) (he : '/' ∉ e)
    (h1 : n ++ e ≠ dot) (h2 : n ++ e ≠ dotdot) : PlainName (n ++ e) :=
  ⟨by simp [hn], by simp [hs, he], h1, h2⟩

theorem cleanStep_plain (rooted : Bool) (out : List Str) (n : Str) (hn : PlainName n) :
    cleanStep rooted out n = n :: out := by
  obtain ⟨h1, _, h3, h4⟩ := hn
  simp [cleanStep, h1, h3, h4]

theorem cleanStack_snoc (a n : Str) (ha : a ≠ []) (hn : PlainName n) :
    cleanStack (a ++ '/' :: n) = n :: cleanStack a := by
  unfold cleanStack
  rw [isRooted_append a _ ha, splitSlash_append, List.foldl_append,
    splitSlash_noslash n hn.2.1]
  simp [cleanStep_plain _ _ n hn]

theorem clean_snoc (a n : Str) (ha : a ≠ []) (hn : PlainName n) :
    clean (a ++ '/' :: n) =
      (if isRooted a then ['/'] else []) ++ joinSlash ((cleanStack a).reverse ++ [n]) := by
  have hst : (splitSlash (a ++ '/' :: n)).foldl (cleanStep (isRooted (a ++ '/' :: n))) [] =
      n :: cleanStack a := cleanStack_snoc a n ha hn
  unfold clean
  simp only [hst, List.reverse_cons]
  rw [isRooted_append a _ ha]
  cases isRooted a
  · simp [joinSlash_snoc_ne_nil _ n hn.1]
  · simp

/-- Appending an extension to a cleaned path that ends in a plain name is the same
as cleaning the path with the extension on its last component. -/
theorem clean_append_ext (a n e : Str) (ha : a ≠ []) (hn : PlainName n)
    (hne : PlainName (n ++ e)) :
    clean (a ++ '/' :: n) ++ e = clean (a ++ '/' :: (n ++ e)) := by
  rw [clean_snoc a n ha hn, clean_snoc a (n ++ e) ha hne, List.append_assoc,
    joinSlash_snoc_append]

theorem resolveStep_plain (p : Path) (n : Str) (hn : PlainName n) :
    resolveStep p n = p ++ [n] := by
  obtain ⟨h1, _, h3, h4⟩ := hn
  simp [resolveStep, h1, h3, h4]

theorem resolve_slash_plain (cwd : Path) (a n : Str) (ha : a ≠ []) (hn : PlainName n) :
    resolve cwd (a ++ '/' :: n) = resolve cwd a ++ [n] := by
  rw [resolve_slash_append cwd a n ha, splitSlash_noslash n hn.2.1]
  simp [resolveStep_plain _ n hn]

theorem resolve_join_plain (cwd : Path) (a n : Str) (ha : a ≠ []) (hn : PlainName n) :
    resolve cwd (join [a, n]) = resolve cwd a ++ [n] := by
  rw [join_two a n ha, resolve_clean, resolve_slash_plain cwd a n ha hn]

theorem clean_plain_pair (c n : Str) (hc : PlainName c) (hn : PlainName n) :
    clean (c ++ '/' :: n) = c ++ '/' :: n := by
  rw [clean_snoc c n hc.1 hn]
  have h1 : cleanStack c = [c] := by
    simp [cleanStack, splitSlash_noslash c hc.2.1, cleanStep_plain _ _ c hc]
  have h2 : isRooted c = false :=
    by simpa using (kept_not_rooted c [] ⟨hc.1, hc.2.2.1, hc.2.1⟩).1
  simp [h1, h2, joinSlash]

/-! ## Cleaning twice -/

theorem stackCanon_step (rooted : Bool) (out : List Str) (c : Str)
    (h : StackCanon rooted out) (hc : '/' ∉ c) : StackCanon rooted (cleanStep rooted out c) := by
  unfold cleanStep
  by_cases h1 : c = [] ∨ c = dot
  · simpa [h1] using h
  · simp only [h1, if_false]
    by_cases h2 : c = dotdot
    · simp only [h2, if_true]
      cases out with
      | nil =>
        cases rooted
        · exact ⟨⟨by decide, by decide, by decide⟩, fun _ => ⟨rfl, by simp⟩, trivial⟩
        · exact trivial
      | cons top below =>
        obtain ⟨hk, hdd, hb⟩ := h
        by_cases h3 : top = dotdot
        · simp only [h3, if_true]
          obtain ⟨hr, hall⟩ := hdd h3
          refine ⟨⟨by decide, by decide, by decide⟩, fun _ => ⟨hr, ?_⟩, ?_⟩
          · intro x hx
            simp only [List.mem_cons] at hx
            rcases hx with rfl | hx
            · rfl
            · exact hall x hx
          · rw [← h3]; exact ⟨hk, hdd, hb⟩
        · simpa [h3] using hb
    · simp only [h2, if_false]
      exact ⟨⟨fun e => h1 (Or.inl e), fun e => h1 (Or.inr e), hc⟩, fun e => absurd e h2, h⟩

theorem stackCanon_foldl (rooted : Bool) (comps : List Str) (out : List Str)
    (h : StackCanon rooted out) (hc : ∀ c ∈ comps, '/' ∉ c) :
    StackCanon rooted (comps.foldl (cleanStep rooted) out) := by
  induction comps generalizing out with
  | nil => exact h
  | cons c cs ih =>
    simp only [List.foldl_cons]
    exact ih _ (stackCanon_step rooted out c h (hc c (by simp)))
      (fun c' h' => hc c' (by simp [h']))

theorem stackCanon_cleanStack (s : Str) : StackCanon (isRooted s) (cleanStack s) :=
  stackCanon_foldl _ _ [] trivial (splitSlash_mem_noslash s)

theorem stackCanon_replay (rooted : Bool) (st : List Str) (h : StackCanon rooted st) :
    st.reverse.foldl (cleanStep rooted) [] = st := by
  induction st with
  | nil => rfl
  | cons top below ih =>
    obtain ⟨hk, hdd, hb⟩ := h
    rw [List.reverse_cons, List.foldl_append, ih hb]
    simp only [List.foldl_cons, List.foldl_nil]
    unfold cleanStep
    have h1 : ¬ (top = [] ∨ top = dot) := fun e => e.elim hk.1 hk.2.1
    simp only [h1, if_false]
    by_cases h2 : top = dotdot
    · obtain ⟨hr, hall⟩ := hdd h2
      simp only [h2, if_true]
      cases below with
      | nil => simp [hr]
      | cons b bs => simp [hall b (by simp)]
    · simp [h2]

theorem cleanStep_nil (rooted : Bool) (out : List Str) : cleanStep rooted out [] = out := by
  simp [cleanStep]

/-- A slash at the end of a path does not change the cleaned path. -/
theorem clean_trailing_slash (s : Str) (hs : s ≠ []) : clean (s ++ ['/']) = clean s := by
  unfold clean
  simp only [isRooted_append s _ hs, splitSlash_append, List.foldl_append]
  simp [splitSlash, cleanStep_nil]

theorem clean_def (s : Str) :
    clean s =
      if isRooted s then '/' :: joinSlash (cleanStack s).reverse
      else if joinSlash (cleanStack s).reverse = [] then dot
      else joinSlash (cleanStack s).reverse := rfl

/-- The function `filepath.Clean` is idempotent. -/
theorem clean_clean (s : Str) : clean (clean s) = clean s := by
  have hcanon := stackCanon_cleanStack s
  have hkept := cleanStack_kept s
  have hreplay := stackCanon_replay _ _ hcanon
  cases hrev : (cleanStack s).reverse with
  | nil =>
    cases hr : isRooted s
    · have : clean s = dot := by
        rw [clean_def, hrev]
        simp [hr, joinSlash]
      rw [this]
      decide
    · have : clean s = ['/'] := by
        rw [clean_def, hrev]
        simp [hr, joinSlash]
      rw [this]
      decide
  | cons a rest =>
    have hk' : ∀ x ∈ a :: rest, Kept x := by
      intro x hx
      exact hkept x (by rw [← List.mem_reverse, hrev]; exact hx)
    have hsplit : splitSlash (joinSlash (a :: rest)) = a :: rest :=
      splitSlash_joinSlash _ (by simp) (fun c h => (hk' c h).2.2)
    obtain ⟨t, ht⟩ := joinSlash_head a rest
    have hnr := kept_not_rooted a t (hk' a (by simp))
    rw [← ht] at hnr
    rw [hrev] at hreplay
    cases hr : isRooted s
    · have hcl : clean s = joinSlash (a :: rest) := by
        rw [clean_def, hrev]
        simp [hr, hnr.2]
      rw [hr] at hreplay
      have hst : cleanStack (joinSlash (a :: rest)) = cleanStack s := by
        show (splitSlash (joinSlash (a :: rest))).foldl
          (cleanStep (isRooted (joinSlash (a :: rest)))) [] = _
        rw [hnr.1, hsplit, hreplay]
      rw [hcl, clean_def, hst, hrev]
      simp [hnr.1, hnr.2]
    · have hcl : clean s = '/' :: joinSlash (a :: rest) := by
        rw [clean_def, hrev]
        simp [hr]
      rw [hr] at hreplay
      have hst : cleanStack ('/' :: joinSlash (a :: rest)) = cleanStack s := by
        show (splitSlash ('/' :: joinSlash (a :: rest))).foldl (cleanStep true) [] = _
        simp only [splitSlash, if_true, hsplit, List.foldl_cons, cleanStep_nil, hreplay]
      rw [hcl, clean_def, hst, hrev]
      simp [isRooted]

/-! ## Facts about the file-system tree -/

theorem lookupE_setE (es : Entries) (n m : Str) (v : Node) :
    lookupE (setE es n v) m = if n = m then some v else lookupE es m := by
  induction es with
  | nil => simp [setE, lookupE]
  | cons hd tl ih =>
    obtain ⟨k, w⟩ := hd
    by_cases hk : k = n
    · subst hk
      by_cases hm : k = m
      · simp [setE, lookupE, hm]
      · simp [setE, lookupE, hm]
    · by_cases hkm : k = m
      · subst hkm
        have hnk : ¬ n = k := fun e => hk e.symm
        simp [setE, lookupE, hk, hnk]
      · simp [setE, lookupE, hk, hkm, ih]

theorem lookupE_eraseE (es : Entries) (n m : Str) :
    lookupE (eraseE es n) m = if n = m then none else lookupE es m := by
  induction es with
  | nil => simp [eraseE, lookupE]
  | cons hd tl ih =>
    obtain ⟨k, w⟩ := hd
    by_cases hk : k = n
    · subst hk
      by_cases hm : k = m
      · subst hm
        simpa [eraseE, lookupE] using ih
      · simpa [eraseE, lookupE, hm] using ih
    · by_cases hkm : k = m
      · subst hkm
        have hnk : ¬ n = k := fun e => hk e.symm
        simp [eraseE, lookupE, hk, hnk]
      · simp [eraseE, lookupE, hk, hkm, ih]

theorem kindAt_nil (es : Entries) : kindAt es [] = .ok .dir := rfl

theorem kindAt_cons (es : Entries) (c : Str) (rest : Path) :
    kindAt es (c :: rest) =
      match lookupE es c with
      | none => .error .ENOENT
      | some (.file d) => if rest = [] then .ok (.file d) else .error .ENOTDIR
      | some (.dir sub) => kindAt sub rest := by
  unfold kindAt
  simp only [getIn]
  cases lookupE es c with
  | none => rfl
  | some n =>
    cases n with
    | file d => by_cases h : rest = [] <;> simp [h, Node.kind]
    | dir sub => rfl

theorem getIn_snoc (es : Entries) (p : Path) (n : Str) :
    getIn es (p ++ [n]) =
      match getIn es p with
      | .error e => .error e
      | .ok (.file _) => .error .ENOTDIR
      | .ok (.dir sub) =>
        match lookupE sub n with
        | none => .error .ENOENT
        | some node => .ok node := by
  induction p generalizing es with
  | nil =>
    simp only [List.nil_append, getIn]
    cases lookupE es n with
    | none => rfl
    | some node => cases node <;> simp [getIn]
  | cons c rest ih =>
    simp only [List.cons_append, getIn]
    cases lookupE es c with
    | none => rfl
    | some node =>
      cases node with
      | file d => by_cases h : rest = [] <;> simp [h]
      | dir sub => exact ih sub

theorem not_prefix_cons (c : Str) (p q : Path) (h : ¬ (c :: p) <+: (c :: q)) : ¬ p <+: q := by
  intro hp
  exact h (by simpa using hp)

theorem putIn_frame (node : Node) (p : Path) (es es' : Entries)
    (h : putIn es node p = .ok es') (q : Path) (hq : ¬ p <+: q) :
    kindAt es' q = kindAt es q := by
  induction p generalizing es es' q with
  | nil => simp [putIn] at h
  | cons c rest ih =>
    cases q with
    | nil => rfl
    | cons c' r =>
      cases rest with
      | nil =>
        simp only [putIn, Except.ok.injEq] at h
        subst h
        have hne : c ≠ c' := by
          intro e; subst e; exact hq (by simp)
        simp [kindAt_cons, lookupE_setE, hne]
      | cons c2 rest' =>
        simp only [putIn] at h
        cases hl : lookupE es c with
        | none => simp [hl] at h
        | some n =>
          cases n with
          | file d => simp [hl] at h
          | dir sub =>
            simp only [hl] at h
            cases hp : putIn sub node (c2 :: rest') with
            | error e => simp [hp] at h
            | ok sub' =>
              simp only [hp, Except.ok.injEq] at h
              subst h
              by_cases hc : c = c'
              · subst hc
                simp only [kindAt_cons, lookupE_setE, if_true, hl]
                exact ih sub sub' hp r (not_prefix_cons c _ _ hq)
              · simp [kindAt_cons, lookupE_setE, hc]

theorem putIn_get (node : Node) (p : Path) (es es' : Entries)
    (h : putIn es node p = .ok es') : getIn es' p = .ok node := by
  induction p generalizing es es' with
  | nil => simp [putIn] at h
  | cons c rest ih =>
    cases rest with
    | nil =>
      simp only [putIn, Except.ok.injEq] at h
      subst h
      cases node <;> simp [getIn, lookupE_setE]
    | cons c2 rest' =>
      simp only [putIn] at h
      cases hl : lookupE es c with
      | none => simp [hl] at h
      | some n =>
        cases n with
        | file d => simp [hl] at h
        | dir sub =>
          simp only [hl] at h
          cases hp : putIn sub node (c2 :: rest') with
          | error e => simp [hp] at h
          | ok sub' =>
            simp only [hp, Except.ok.injEq] at h
            subst h
            simp only [getIn, lookupE_setE, if_true]
            exact ih sub sub' hp

theorem dropIn_frame (p : Path) (es : Entries) (q : Path) (hq : ¬ p <+: q) :
    kindAt (dropIn es p) q = kindAt es q := by
  induction p generalizing es q with
  | nil => exact absurd (List.nil_prefix) hq
  | cons c rest ih =>
    cases q with
    | nil => rfl
    | cons c' r =>
      cases rest with
      | nil =>
        have hne : c ≠ c' := by
          intro e; subst e; exact hq (by simp)
        simp [dropIn, kindAt_cons, lookupE_eraseE, hne]
      | cons c2 rest' =>
        simp only [dropIn]
        cases hl : lookupE es c with
        | none => rfl
        | some n =>
          cases n with
          | file d => rfl
          | dir sub =>
            simp only
            by_cases hc : c = c'
            · subst hc
              simp only [kindAt_cons, lookupE_setE, if_true, hl]
              exact ih sub r (not_prefix_cons c _ _ hq)
            · simp [kindAt_cons, lookupE_setE, hc]

theorem dropIn_gone (p : Path) (hp : p ≠ []) (es : Entries) (n : Node)
    (h : getIn es p = .ok n) (r : Path) :
    getIn (dropIn es p) (p ++ r) = .error .ENOENT := by
  induction p generalizing es with
  | nil => exact absurd rfl hp
  | cons c rest ih =>
    cases rest with
    | nil => simp [dropIn, getIn, lookupE_eraseE]
    | cons c2 rest' =>
      simp only [getIn] at h
      cases hl : lookupE es c with
      | none => simp [hl] at h
      | some m =>
        cases m with
        | file d => simp [hl] at h
        | dir sub =>
          simp only [hl] at h
          simp only [dropIn, hl, List.cons_append, getIn, lookupE_setE, if_true]
          exact ih (by simp) sub h

theorem kindAt_empty (r : Path) (hr : r ≠ []) : kindAt [] r = .error .ENOENT := by
  cases r with
  | nil => exact absurd rfl hr
  | cons c rest => simp [kindAt_cons, lookupE]

theorem mkdirAllIn_spec (p : Path) (es es' : Entries) (h : mkdirAllIn es p = .ok es') (q : Path) :
    (q <+: p → kindAt es' q = .ok .dir) ∧ (¬ q <+: p → kindAt es' q = kindAt es q) := by
  induction p generalizing es es' q with
  | nil =>
    simp only [mkdirAllIn, Except.ok.injEq] at h
    subst h
    constructor
    · intro hq
      have : q = [] := List.prefix_nil.mp hq
      subst this; rfl
    · intro _; rfl
  | cons c rest ih =>
    cases q with
    | nil => exact ⟨fun _ => rfl, fun hq => absurd List.nil_prefix hq⟩
    | cons c' r =>
      simp only [mkdirAllIn] at h
      cases hl : lookupE es c with
      | none =>
        simp only [hl] at h
        cases hm : mkdirAllIn [] rest with
        | error e => simp [hm] at h
        | ok sub =>
          simp only [hm, Except.ok.injEq] at h
          subst h
          by_cases hc : c = c'
          · subst hc
            have ih' := ih [] sub hm r
            simp only [kindAt_cons, lookupE_setE, if_true, hl]
            constructor
            · intro hq
              exact ih'.1 (by simpa using hq)
            · intro hq
              have hr : ¬ r <+: rest := fun hp => hq (by simpa using hp)
              rw [ih'.2 hr]
              exact kindAt_empty r (by intro e; subst e; exact hr List.nil_prefix)
          · constructor
            · intro hq
              exact absurd (List.cons_prefix_cons.mp hq).1.symm hc
            · intro _
              simp [kindAt_cons, lookupE_setE, hc]
      | some n =>
        cases n with
        | file d => simp [hl] at h
        | dir sub0 =>
          simp only [hl] at h
          cases hm : mkdirAllIn sub0 rest with
          | error e => simp [hm] at h
          | ok sub =>
            simp only [hm, Except.ok.injEq] at h
            subst h
            by_cases hc : c = c'
            · subst hc
              have ih' := ih sub0 sub hm r
              simp only [kindAt_cons, lookupE_setE, if_true, hl]
              constructor
              · intro hq
                exact ih'.1 (by simpa using hq)
              · intro hq
                exact ih'.2 (fun hp => hq (by simpa using hp))
            · constructor
              · intro hq
                exact absurd (List.cons_prefix_cons.mp hq).1.symm hc
              · intro _
                simp [kindAt_cons, lookupE_setE, hc]

theorem osStat_eq (fs : FS) (s : Str) (hs : s ≠ []) :
    osStat fs s = kindAt fs.root (resolve fs.cwd s) := by
  simp [osStat, FS.node, hs, kindAt]

theorem kindAt_ok_file (es : Entries) (p : Path) (d : Str) :
    kindAt es p = .ok (.file d) ↔ getIn es p = .ok (.file d) := by
  unfold kindAt
  cases getIn es p with
  | error e => simp
  | ok n => cases n <;> simp [Node.kind]

theorem kindAt_ok_dir (es : Entries) (p : Path) :
    kindAt es p = .ok .dir ↔ ∃ sub, getIn es p = .ok (.dir sub) := by
  unfold kindAt
  cases getIn es p with
  | error e =>
    constructor
    · intro h; cases h
    · rintro ⟨sub, h⟩; cases h
  | ok n =>
    cases n with
    | file d =>
      constructor
      · intro h; cases h
      · rintro ⟨sub, h⟩; cases h
    | dir sub => exact ⟨fun _ => ⟨sub, rfl⟩, fun _ => rfl⟩

theorem kindAt_error (es : Entries) (p : Path) (e : Errno) :
    kindAt es p = .error e ↔ getIn es p = .error e := by
  unfold kindAt
  cases getIn es p with
  | error e => simp
  | ok n => simp

theorem readFile_eq (fs : FS) (s : Str) (hs : s ≠ []) :
    readFile fs s =
      match kindAt fs.root (resolve fs.cwd s) with
      | .error e => .error e
      | .ok .dir => .error .EISDIR
      | .ok (.file d) => .ok d := by
  simp only [readFile, FS.node, hs, if_false, kindAt]
  cases getIn fs.root (resolve fs.cwd s) with
  | error e => rfl
  | ok n => cases n <;> rfl

theorem stat_of_ok (fs : FS) (s : Str) (k : Kind) (h : osStat fs s = .ok k) :
    stat fs s = .ok k := by
  simp [stat, h]

theorem stat_of_enoent (fs : FS) (s : Str) (h : osStat fs s = .error .ENOENT) :
    stat fs s = osStat fs (s ++ extJson) := by
  simp [stat, h]

theorem getOrCreateMutex_dir (d : Driver) (c : Str) : (d.getOrCreateMutex c).2.dir = d.dir := by
  unfold Driver.getOrCreateMutex
  cases mutexOf d.mutexes c <;> rfl

/-! ## Facts about the system calls -/

theorem osStat_ok_ne_nil (fs : FS) (s : Str) (k : Kind) (h : osStat fs s = .ok k) : s ≠ [] := by
  intro e
  subst e
  simp [osStat, FS.node] at h

theorem splitSlash_getLast_append (a b : Str) :
    (splitSlash (a ++ '/' :: b)).getLast? = (splitSlash b).getLast? := by
  rw [splitSlash_append]
  exact List.getLast?_append_of_ne_nil _ (splitSlash_ne_nil b)

theorem endsWithDot_last (s : Str) (h : endsWithDot s = true) :
    (splitSlash s).getLast? = some dot := by
  unfold endsWithDot at h
  simp only [Bool.or_eq_true, decide_eq_true_eq, beq_iff_eq] at h
  rcases h with h | h
  · subst h; rfl
  · have hs : s = (s.reverse.drop 2).reverse ++ ['/', '.'] := by
      have := List.take_append_drop 2 s.reverse
      rw [h] at this
      have h2 := congrArg List.reverse this
      simp only [List.reverse_append, List.reverse_reverse] at h2
      rw [← h2]
      simp
    rw [hs, splitSlash_getLast_append]
    rfl

theorem split_clean_snoc (a n : Str) (ha : a ≠ []) (hn : PlainName n) :
    (splitSlash (clean (a ++ '/' :: n))).getLast? = some n := by
  rw [clean_snoc a n ha hn]
  have hk : ∀ x ∈ (cleanStack a).reverse ++ [n], '/' ∉ x := by
    intro x hx
    simp only [List.mem_append, List.mem_reverse, List.mem_singleton] at hx
    rcases hx with hx | hx
    · exact (cleanStack_kept a x hx).2.2
    · subst hx; exact hn.2.1
  have hsp := splitSlash_joinSlash ((cleanStack a).reverse ++ [n]) (by simp) hk
  have hlast : ∀ l : List Str, (l ++ [n]).getLast? = some n := fun l => List.getLast?_concat l
  cases isRooted a
  · simp only [Bool.false_eq_true, if_false, List.nil_append, hsp]
    exact hlast _
  · have e : ['/'] ++ joinSlash ((cleanStack a).reverse ++ [n]) =
        [] ++ '/' :: joinSlash ((cleanStack a).reverse ++ [n]) := rfl
    simp only [if_true]
    rw [e, splitSlash_getLast_append, hsp]
    exact hlast _

theorem clean_snoc_removable (a n : Str) (ha : a ≠ []) (hn : PlainName n) :
    endsWithDot (clean (a ++ '/' :: n)) = false ∧ lastIsDotDot (clean (a ++ '/' :: n)) = false := by
  have hl := split_clean_snoc a n ha hn
  constructor
  · cases he : endsWithDot (clean (a ++ '/' :: n)) with
    | false => rfl
    | true =>
      have := endsWithDot_last _ he
      rw [hl] at this
      exact absurd (Option.some.inj this) hn.2.2.1
  · unfold lastIsDotDot
    rw [hl]
    simp [hn.2.2.2]

theorem clean_plain_slash (c : Str) (hc : PlainName c) : clean (c ++ ['/']) = c := by
  have h2 : isRooted c = false :=
    by simpa using (kept_not_rooted c [] ⟨hc.1, hc.2.2.1, hc.2.1⟩).1
  unfold clean
  rw [isRooted_append c _ hc.1, splitSlash_append, splitSlash_noslash c hc.2.1]
  simp [h2, splitSlash, cleanStep_plain _ _ c hc, cleanStep, joinSlash, hc.1, hc.2.2.1,
    hc.2.2.2]

theorem join_plain_empty (c : Str) (hc : PlainName c) : join [c, []] = c := by
  simp [join, hc.1, joinSlash, clean_plain_slash c hc]

theorem join_plain_pair (c n : Str) (hc : PlainName c) (hn : PlainName n) :
    join [c, n] = c ++ '/' :: n := by
  rw [join_two c n hc.1, clean_plain_pair c n hc hn]

/-- What `Delete` does when its target is a directory that can be removed. -/
theorem delete_directory (d : Driver) (fs : FS) (c doc : Str)
    (hk : osStat fs (deleteTarget d c doc) = .ok .dir)
    (h1 : endsWithDot (deleteTarget d c doc) = false)
    (h2 : lastIsDotDot (deleteTarget d c doc) = false)
    (h3 : resolve fs.cwd (deleteTarget d c doc) ≠ []) :
    d.Delete fs c doc =
      (none, (d.getOrCreateMutex c).2,
        { fs with root := dropIn fs.root (resolve fs.cwd (deleteTarget d c doc)) }) := by
  have hne := osStat_ok_ne_nil fs _ _ hk
  have hkind : kindAt fs.root (resolve fs.cwd (deleteTarget d c doc)) = .ok .dir := by
    rw [← osStat_eq fs _ hne]; exact hk
  obtain ⟨sub, hsub⟩ := (kindAt_ok_dir _ _).mp hkind
  unfold deleteTarget at hk h1 h2 h3 hne hsub
  simp only [Driver.Delete, getOrCreateMutex_dir, stat_of_ok fs _ _ hk, osRemoveAll, hne, h1,
    hsub, h3, h2, if_false, Bool.false_eq_true]
  rfl

/-- Removing a path with everything beneath it: the paths at and below it are
gone and all other paths are as before. -/
theorem dropIn_spec (es : Entries) (p : Path) (hp : p ≠ []) (n : Node)
    (h : getIn es p = .ok n) :
    (∀ r, kindAt (dropIn es p) (p ++ r) = .error .ENOENT) ∧
    (∀ q, ¬ p <+: q → kindAt (dropIn es p) q = kindAt es q) :=
  ⟨fun r => (kindAt_error _ _ _).mpr (dropIn_gone p hp es n h r), fun q hq => dropIn_frame p es q hq⟩

/-! ## The paths of a document -/

theorem append_ext_plain (doc e : Str) (hdoc : '/' ∉ doc) (he : '/' ∉ e) (hlen : 3 ≤ e.length) :
    PlainName (doc ++ e) := by
  refine ⟨?_, by simp [hdoc, he], ?_, ?_⟩
  · intro h
    have := congrArg List.length h
    simp only [List.length_append, List.length_nil] at this
    omega
  · intro h
    have := congrArg List.length h
    simp only [List.length_append, dot, List.length_singleton] at this
    omega
  · intro h
    have := congrArg List.length h
    simp only [List.length_append, dotdot, List.length_cons, List.length_nil] at this
    omega

theorem docJson_plain (doc : Str) (hdoc : '/' ∉ doc) : PlainName (doc ++ extJson) :=
  append_ext_plain doc extJson hdoc (by decide) (by decide)

theorem docTmp_plain (doc : Str) (hdoc : '/' ∉ doc) : PlainName (doc ++ extJson ++ extTmp) := by
  rw [List.append_assoc]
  exact append_ext_plain doc (extJson ++ extTmp) hdoc (by decide) (by decide)

theorem resolve_fnlPath (cwd : Path) (d : Driver) (c doc : Str) (hd : d.dir ≠ [])
    (hdoc : '/' ∉ doc) :
    resolve cwd (fnlPath d c doc) = resolve cwd (join [d.dir, c]) ++ [doc ++ extJson] :=
  resolve_join_plain cwd _ _ (join_two_ne_nil _ _ (Or.inl hd)) (docJson_plain doc hdoc)

theorem resolve_tmpPath (cwd : Path) (d : Driver) (c doc : Str) (hd : d.dir ≠ [])
    (hdoc : '/' ∉ doc) :
    resolve cwd (fnlPath d c doc ++ extTmp) =
      resolve cwd (join [d.dir, c]) ++ [doc ++ extJson ++ extTmp] := by
  have hne : join [d.dir, c] ≠ [] := join_two_ne_nil _ _ (Or.inl hd)
  unfold fnlPath
  rw [join_two _ _ hne, clean_append_ext _ _ extTmp hne (docJson_plain doc hdoc)
    (docTmp_plain doc hdoc), resolve_clean, resolve_slash_plain cwd _ _ hne (docTmp_plain doc hdoc)]

theorem join_three_assoc (a c doc : Str) (ha : a ≠ []) :
    join [a, c, doc] = clean ((a ++ '/' :: c) ++ '/' :: doc) := by
  rw [join_three a c doc ha]
  simp

theorem resolve_collection (cwd : Path) (a c : Str) (ha : a ≠ []) :
    resolve cwd (a ++ '/' :: c) = resolve cwd (join [a, c]) := by
  rw [join_two a c ha, resolve_clean]

theorem resolve_record (cwd : Path) (d : Driver) (c doc : Str) (hd : d.dir ≠ [])
    (hdoc : PlainName doc) :
    resolve cwd (join [d.dir, c, doc]) = resolve cwd (join [d.dir, c]) ++ [doc] := by
  rw [join_three_assoc _ _ _ hd, resolve_clean, resolve_slash_plain cwd _ _ (by simp) hdoc,
    resolve_collection cwd _ _ hd]

theorem resolve_record_json (cwd : Path) (d : Driver) (c doc : Str) (hd : d.dir ≠ [])
    (hdoc : PlainName doc) :
    resolve cwd (join [d.dir, c, doc] ++ extJson) =
      resolve cwd (join [d.dir, c]) ++ [doc ++ extJson] := by
  rw [join_three_assoc _ _ _ hd, clean_append_ext _ _ extJson (by simp) hdoc
    (docJson_plain doc hdoc.2.1), resolve_clean,
    resolve_slash_plain cwd _ _ (by simp) (docJson_plain doc hdoc.2.1),
    resolve_collection cwd _ _ hd]

theorem record_ne_nil (d : Driver) (c doc : Str) (hd : d.dir ≠ []) :
    join [d.dir, c, doc] ≠ [] := by
  rw [join_three _ _ _ hd]; exact clean_ne_nil _

theorem fnlPath_ne_nil (d : Driver) (c doc : Str) : fnlPath d c doc ≠ [] :=
  join_two_ne_nil _ _ (Or.inr (by simp [extJson]))

theorem deleteTarget_plain (d : Driver) (c doc : Str) (hd : d.dir ≠ []) (hc : PlainName c)
    (hdoc : PlainName doc) : deleteTarget d c doc = join [d.dir, c, doc] := by
  unfold deleteTarget
  rw [join_plain_pair c doc hc hdoc, join_two _ _ hd, join_three _ _ _ hd]

theorem deleteTarget_collection (d : Driver) (c : Str) (hc : PlainName c) :
    deleteTarget d c [] = join [d.dir, c] := by
  unfold deleteTarget
  rw [join_plain_empty c hc]

theorem resolve_deleteTarget_root (cwd : Path) (d : Driver) (hd : d.dir ≠ []) :
    resolve cwd (deleteTarget d [] []) = resolve cwd d.dir := by
  unfold deleteTarget
  have e : join [([] : Str), []] = [] := by simp [join]
  rw [e, join_two _ _ hd, resolve_clean, resolve_slash_append cwd _ _ hd]
  simp [splitSlash, resolveStep]

/-- Below a directory that has an entry, any other name is there or is missing:
looking it up never fails with `ENOTDIR`. -/
theorem sibling_kind (es : Entries) (p : Path) (m n : Str) (k : Kind)
    (h : kindAt es (p ++ [m]) = .ok k) :
    (∃ k', kindAt es (p ++ [n]) = .ok k') ∨ kindAt es (p ++ [n]) = .error .ENOENT := by
  unfold kindAt at h ⊢
  rw [getIn_snoc] at h ⊢
  cases hg : getIn es p with
  | error e => simp [hg] at h
  | ok node =>
    cases node with
    | file data => simp [hg] at h
    | dir sub =>
      cases hl : lookupE sub n with
      | none => right; simp [hl]
      | some x => left; exact ⟨x.kind, by simp [hl]⟩

/-! ## Removal only takes away -/

theorem dropIn_same_or_gone (p : Path) (es : Entries) (q : Path) :
    kindAt (dropIn es p) q = kindAt es q ∨ kindAt (dropIn es p) q = .error .ENOENT := by
  induction p generalizing es q with
  | nil => exact Or.inl rfl
  | cons c rest ih =>
    cases q with
    | nil => exact Or.inl rfl
    | cons c' r =>
      cases rest with
      | nil =>
        by_cases hc : c = c'
        · right; simp [dropIn, kindAt_cons, lookupE_eraseE, hc]
        · left; simp [dropIn, kindAt_cons, lookupE_eraseE, hc]
      | cons c2 rest' =>
        simp only [dropIn]
        cases hl : lookupE es c with
        | none => exact Or.inl rfl
        | some n =>
          cases n with
          | file d => exact Or.inl rfl
          | dir sub =>
            simp only
            by_cases hc : c = c'
            · subst hc
              simp only [kindAt_cons, lookupE_setE, if_true, hl]
              exact ih sub r
            · left; simp [kindAt_cons, lookupE_setE, hc]

theorem putIn_empty_same_or_gone (p : Path) (es es' : Entries)
    (h : putIn es (.dir []) p = .ok es') (hdir : kindAt es p = .ok .dir) (q : Path) :
    kindAt es' q = kindAt es q ∨ kindAt es' q = .error .ENOENT := by
  induction p generalizing es es' q with
  | nil => simp [putIn] at h
  | cons c rest ih =>
    cases q with
    | nil => exact Or.inl rfl
    | cons c' r =>
      cases rest with
      | nil =>
        simp only [putIn, Except.ok.injEq] at h
        subst h
        by_cases hc : c = c'
        · subst hc
          simp only [kindAt_cons, lookupE_setE, if_true]
          cases r with
          | nil =>
            left
            rw [kindAt_cons] at hdir
            rw [kindAt_nil, hdir]
          | cons x xs => right; exact kindAt_empty _ (by simp)
        · left; simp [kindAt_cons, lookupE_setE, hc]
      | cons c2 rest' =>
        simp only [putIn] at h
        rw [kindAt_cons] at hdir
        cases hl : lookupE es c with
        | none => simp [hl] at h
        | some n =>
          cases n with
          | file d => simp [hl] at h
          | dir sub =>
            simp only [hl] at h hdir
            cases hp : putIn sub (.dir []) (c2 :: rest') with
            | error e => simp [hp] at h
            | ok sub' =>
              simp only [hp, Except.ok.injEq] at h
              subst h
              by_cases hc : c = c'
              · subst hc
                simp only [kindAt_cons, lookupE_setE, if_true, hl]
                exact ih sub sub' hp hdir r
              · left; simp [kindAt_cons, lookupE_setE, hc]

theorem osRemove_same_or_gone (fs fs' : FS) (s : Str) (h : osRemove fs s = .ok fs') :
    fs'.cwd = fs.cwd ∧
      ∀ q, kindAt fs'.root q = kindAt fs.root q ∨ kindAt fs'.root q = .error .ENOENT := by
  unfold osRemove at h
  split at h
  · simp at h
  · simp only [Except.ok.injEq] at h
    subst h
    exact ⟨rfl, fun q => dropIn_same_or_gone _ _ q⟩
  · split at h
    · simp at h
    · split at h
      · simp at h
      · split at h
        · simp at h
        · split at h
          · simp only [Except.ok.injEq] at h
            subst h
            exact ⟨rfl, fun q => dropIn_same_or_gone _ _ q⟩
          · simp at h

theorem osRemoveAll_same_or_gone (fs : FS) (s : Str) :
    (osRemoveAll fs s).2.cwd = fs.cwd ∧
      ∀ q, kindAt (osRemoveAll fs s).2.root q = kindAt fs.root q ∨
        kindAt (osRemoveAll fs s).2.root q = .error .ENOENT := by
  unfold osRemoveAll
  by_cases hs : s = []
  · simp [hs]
  simp only [hs, if_false]
  by_cases hdot : endsWithDot s = true
  · simp [hdot]
  simp only [hdot, if_false]
  cases hg : getIn fs.root (resolve fs.cwd s) with
  | error e => cases e <;> simp
  | ok n =>
    cases n with
    | file data => exact ⟨rfl, fun q => dropIn_same_or_gone _ _ q⟩
    | dir sub =>
      simp only
      by_cases hroot : resolve fs.cwd s = []
      · simp only [hroot, if_true]
        refine ⟨rfl, fun q => ?_⟩
        cases q with
        | nil => exact Or.inl rfl
        | cons c r => exact Or.inr (kindAt_empty _ (by simp))
      simp only [hroot, if_false]
      by_cases hdd : lastIsDotDot s = true
      · simp only [hdd, if_true]
        refine ⟨rfl, fun q => ?_⟩
        cases hp : putIn fs.root (.dir []) (resolve fs.cwd s) with
        | error e => exact Or.inl rfl
        | ok es =>
          exact putIn_empty_same_or_gone _ _ _ hp ((kindAt_ok_dir _ _).mpr ⟨sub, hg⟩) q
      · simp only [hdd, if_false]
        exact ⟨rfl, fun q => dropIn_same_or_gone _ _ q⟩

/-- Whatever its arguments, `Delete` keeps the root path of the driver and the
working directory, and every path afterwards names what it named before or
nothing at all. -/
theorem delete_same_or_gone (d : Driver) (fs : FS) (c doc : Str) :
    (d.Delete fs c doc).2.1.dir = d.dir ∧ (d.Delete fs c doc).2.2.cwd = fs.cwd ∧
      ∀ q, kindAt (d.Delete fs c doc).2.2.root q = kindAt fs.root q ∨
        kindAt (d.Delete fs c doc).2.2.root q = .error .ENOENT := by
  simp only [Driver.Delete, getOrCreateMutex_dir]
  cases hst : stat fs (join [d.dir, join [c, doc]]) with
  | error e => exact ⟨getOrCreateMutex_dir d c, rfl, fun q => Or.inl rfl⟩
  | ok k =>
    cases k with
    | dir =>
      simp only
      have := osRemoveAll_same_or_gone fs (join [d.dir, join [c, doc]])
      cases hr : osRemoveAll fs (join [d.dir, join [c, doc]]) with
      | mk e fs' =>
        rw [hr] at this
        cases e <;> exact ⟨getOrCreateMutex_dir d c, this.1, this.2⟩
    | file z =>
      simp only
      cases hr : osRemove fs (join [d.dir, join [c, doc]] ++ extJson) with
      | error e => exact ⟨getOrCreateMutex_dir d c, rfl, fun q => Or.inl rfl⟩
      | ok fs' =>
        have := osRemove_same_or_gone fs fs' _ hr
        exact ⟨getOrCreateMutex_dir d c, this.1, this.2⟩

/-! ## Empty names (C3) -/

/-- C3: `Write` with an empty collection name or an empty document name returns
an error and leaves the file system and the lock registry (the whole driver) as
they were; `Read` with an empty collection or document name returns an error and
leaves the output value as it was (it has no access to the file system). -/
theorem empty_names_rejected {V : Type} (cd : Codec V) (d : Driver) (fs : FS)
    (c doc : Str) (v : V) :
    d.Write cd fs [] doc v = (some .missingCollection, d, fs) ∧
    (∃ e, d.Write cd fs c [] v = (some e, d, fs)) ∧
    d.Read cd fs [] doc v = (some .missingCollection, v) ∧
    (∃ e, d.Read cd fs c [] v = (some e, v)) := by
  refine ⟨by simp [Driver.Write], ?_, by simp [Driver.Read], ?_⟩
  · by_cases hc : c = []
    · exact ⟨.missingCollection, by simp [Driver.Write, hc]⟩
    · exact ⟨.missingDocument, by simp [Driver.Write, hc]⟩
  · by_cases hc : c = []
    · exact ⟨.missingCollection, by simp [Driver.Read, hc]⟩
    · exact ⟨.missingDocument, by simp [Driver.Read, hc]⟩

/-! ## The constructor (C8) -/

/-- C8: on a file system where `/db` does not exist, `New("/db", opts)` with a
logger configured returns the driver without error and without creating the
directory (`os.Stat` of it still fails with `ENOENT`), and `New("/db", nil)`
panics; when the directory exists, `New` with no options returns normally. -/
theorem new_does_not_create_missing_root :
    newView "/db".toList (New emptyFS "/db".toList (some { logger := some (.custom 1) })) =
      some (freshDriver "/db".toList (some .console), none, .error .ENOENT) ∧
    newView "/db".toList (New emptyFS "/db".toList none) = none ∧
    newView "/w".toList (New homeFS "/w".toList none) =
      some (freshDriver "/w".toList none, none, .ok .dir) := by
  decide

/-- The driver that `New` returns has a cleaned, non-empty root path, an empty
lock registry and no mutex allocated. -/
theorem new_driver (fs fs' : FS) (dir : Str) (opts : Option Options) (d : Driver)
    (e : Option Error) (h : New fs dir opts = .ret (d, e, fs')) :
    d.dir = clean dir ∧ clean d.dir = d.dir ∧ d.dir ≠ [] ∧ d.mutexes = [] ∧ d.allocated = 0 := by
  have key : d.dir = clean dir ∧ d.mutexes = [] ∧ d.allocated = 0 := by
    unfold New at h
    simp only at h
    split at h
    · split at h
      · cases h
      · cases h; exact ⟨rfl, rfl, rfl⟩
    · split at h <;> (cases h; exact ⟨rfl, rfl, rfl⟩)
  refine ⟨key.1, ?_, ?_, key.2.1, key.2.2⟩
  · rw [key.1, clean_clean]
  · rw [key.1]; exact clean_ne_nil _

/-! ## The lock registry (C9) -/

theorem mutexOf_append (l : List (Str × Nat)) (c x : Str) (m : Nat) :
    mutexOf (l ++ [(c, m)]) x =
      match mutexOf l x with
      | some y => some y
      | none => if c = x then some m else none := by
  induction l with
  | nil => simp [mutexOf]
  | cons hd tl ih =>
    obtain ⟨k, y⟩ := hd
    by_cases hk : k = x
    · simp [mutexOf, hk]
    · simp [mutexOf, hk, ih]

theorem getOrCreateMutex_lookup (d : Driver) (c : Str) :
    mutexOf (d.getOrCreateMutex c).2.mutexes c = some (d.getOrCreateMutex c).1 := by
  unfold Driver.getOrCreateMutex
  cases h : mutexOf d.mutexes c with
  | some m => simpa using h
  | none => simp [mutexOf_append, h]

theorem getOrCreateMutex_mono (d : Driver) (c x : Str) (m : Nat)
    (h : mutexOf d.mutexes x = some m) :
    mutexOf (d.getOrCreateMutex c).2.mutexes x = some m := by
  unfold Driver.getOrCreateMutex
  cases hc : mutexOf d.mutexes c with
  | some m' => simpa using h
  | none => simp [mutexOf_append, h]

theorem getOrCreateMutex_ok (d : Driver) (c : Str) (h : RegistryOk d) :
    RegistryOk (d.getOrCreateMutex c).2 := by
  unfold Driver.getOrCreateMutex
  cases hc : mutexOf d.mutexes c with
  | some m' => simpa using h
  | none =>
    obtain ⟨h1, h2⟩ := h
    have key : ∀ x m, mutexOf (d.mutexes ++ [(c, d.allocated)]) x = some m →
        (mutexOf d.mutexes x = some m) ∨
          (mutexOf d.mutexes x = none ∧ c = x ∧ m = d.allocated) := by
      intro x m hx
      rw [mutexOf_append] at hx
      cases hm : mutexOf d.mutexes x with
      | some y => rw [hm] at hx; exact Or.inl hx
      | none =>
        rw [hm] at hx
        by_cases hcx : c = x
        · simp [hcx] at hx; exact Or.inr ⟨rfl, hcx, hx.symm⟩
        · simp [hcx] at hx
    refine ⟨?_, ?_⟩
    · intro x m hx
      rcases key x m hx with h' | ⟨_, _, h'⟩
      · exact Nat.lt_succ_of_lt (h1 x m h')
      · simp [h']
    · intro x x' m hx hx'
      rcases key x m hx with h' | ⟨_, e1, e2⟩ <;> rcases key x' m hx' with h'' | ⟨_, e1', e2'⟩
      · exact h2 x x' m h' h''
      · exact absurd (h1 x m h') (by omega)
      · exact absurd (h1 x' m h'') (by omega)
      · exact e1.symm.trans e1'

theorem step_driver {V : Type} (cd : Codec V) (st : Driver × FS) (op : Op V) :
    (Op.step cd st op).1 = st.1 ∨ ∃ c, (Op.step cd st op).1 = (st.1.getOrCreateMutex c).2 := by
  cases op with
  | write c doc v =>
    simp only [Op.step, Driver.Write]
    by_cases hc : c = []
    · simp [hc]
    · by_cases hd : doc = []
      · simp [hc, hd]
      · right
        refine ⟨c, ?_⟩
        simp only [hc, hd, if_false]
        split
        · rfl
        · split
          · rfl
          · split
            · rfl
            · split <;> rfl
  | read c doc v => exact Or.inl rfl
  | readAll c => exact Or.inl rfl
  | delete c doc =>
    right
    refine ⟨c, ?_⟩
    simp only [Op.step, Driver.Delete]
    split
    · rfl
    · split <;> rfl
    · split <;> rfl
  | getOrCreateMutex c => exact Or.inr ⟨c, rfl⟩

theorem run_registry {V : Type} (cd : Codec V) (ops : List (Op V)) (st : Driver × FS)
    (h : RegistryOk st.1) :
    RegistryOk (run cd st ops).1 ∧
      ∀ x m, mutexOf st.1.mutexes x = some m → mutexOf (run cd st ops).1.mutexes x = some m := by
  induction ops generalizing st with
  | nil => exact ⟨h, fun _ _ hx => hx⟩
  | cons op rest ih =>
    have hstep : RegistryOk (Op.step cd st op).1 ∧
        ∀ x m, mutexOf st.1.mutexes x = some m →
          mutexOf (Op.step cd st op).1.mutexes x = some m := by
      rcases step_driver cd st op with e | ⟨c, e⟩
      · rw [e]; exact ⟨h, fun _ _ hx => hx⟩
      · rw [e]; exact ⟨getOrCreateMutex_ok _ _ h, fun x m hx => getOrCreateMutex_mono _ _ x m hx⟩
    obtain ⟨ih1, ih2⟩ := ih (Op.step cd st op) hstep.1
    exact ⟨ih1, fun x m hx => ih2 x m (hstep.2 x m hx)⟩

theorem freshDriver_ok (dir : Str) (log : Option Logger) : RegistryOk (freshDriver dir log) := by
  constructor
  · intro c m h; simp [freshDriver, mutexOf] at h
  · intro c c' m h; simp [freshDriver, mutexOf] at h

/-- C9: starting from the driver that `New` builds, after any calls `ops1`, let
`getOrCreateMutex(c)` return the mutex `g.1`.  Then after any further calls `ops2`
`getOrCreateMutex(c)` returns the same mutex and `getOrCreateMutex` of any other
name returns a different one; every entry of the registry before `ops2` is still
there, with the same mutex, after it; a call for a registered name changes nothing
in the driver; and a call for an unregistered name leaves the entries of all other
names as they are. -/
theorem registry_invariant {V : Type} (cd : Codec V) (dir : Str) (log : Option Logger)
    (fs : FS) (ops1 ops2 : List (Op V)) (c c' : Str) :
    let s1 := run cd (freshDriver dir log, fs) ops1
    let g := s1.1.getOrCreateMutex c
    let s2 := run cd (g.2, s1.2) ops2
    (s2.1.getOrCreateMutex c).1 = g.1 ∧
    (c' ≠ c → (s2.1.getOrCreateMutex c').1 ≠ g.1) ∧
    (∀ x m, mutexOf s1.1.mutexes x = some m → mutexOf s2.1.mutexes x = some m) ∧
    (∀ m, mutexOf s1.1.mutexes c = some m → g = (m, s1.1)) ∧
    (∀ x, x ≠ c → mutexOf g.2.mutexes x = mutexOf s1.1.mutexes x) := by
  intro s1 g s2
  have ok1 : RegistryOk s1.1 := (run_registry cd ops1 _ (freshDriver_ok dir log)).1
  have okg : RegistryOk g.2 := getOrCreateMutex_ok _ _ ok1
  obtain ⟨ok2, mono2⟩ := run_registry cd ops2 (g.2, s1.2) okg
  have hc : mutexOf s2.1.mutexes c = some g.1 := mono2 c g.1 (getOrCreateMutex_lookup s1.1 c)
  have same : ∀ (d : Driver) (x : Str) (m : Nat), mutexOf d.mutexes x = some m →
      d.getOrCreateMutex x = (m, d) := by
    intro d x m hx
    simp [Driver.getOrCreateMutex, hx]
  refine ⟨?_, ?_, ?_, ?_, ?_⟩
  · rw [same s2.1 c g.1 hc]
  · intro hne heq
    have ok3 : RegistryOk (s2.1.getOrCreateMutex c').2 := getOrCreateMutex_ok _ _ ok2
    have h1 : mutexOf (s2.1.getOrCreateMutex c').2.mutexes c' = some g.1 := by
      rw [← heq]; exact getOrCreateMutex_lookup s2.1 c'
    have h2 : mutexOf (s2.1.getOrCreateMutex c').2.mutexes c = some g.1 :=
      getOrCreateMutex_mono _ _ c g.1 hc
    exact hne (ok3.2 c' c g.1 h1 h2)
  · intro x m hx
    exact mono2 x m (getOrCreateMutex_mono _ _ x m hx)
  · intro m hm
    exact same s1.1 c m hm
  · intro x hx
    show mutexOf (s1.1.getOrCreateMutex c).2.mutexes x = _
    unfold Driver.getOrCreateMutex
    cases hm : mutexOf s1.1.mutexes c with
    | some m => rfl
    | none =>
      simp only [mutexOf_append]
      cases mutexOf s1.1.mutexes x with
      | some y => rfl
      | none => simp [Ne.symm hx]

/-! ## ReadAll (C6, C7) -/

/-- C6, as the code has it: when neither the collection directory nor the same
path with `.json` appended exists, `ReadAll` of a non-empty collection name fails
with the `ENOENT` error of `stat`. -/
theorem readAll_missing_collection (d : Driver) (fs : FS) (c : Str) (hc : c ≠ [])
    (h1 : osStat fs (join [d.dir, c]) = .error .ENOENT)
    (h2 : osStat fs (join [d.dir, c] ++ extJson) = .error .ENOENT) :
    d.ReadAll fs c = .error (.sys .ENOENT) := by
  simp [Driver.ReadAll, hc, stat_of_enoent fs _ h1, h2]

theorem readAll_missing_collection_witness :
    dotDriver.ReadAll homeFS "c".toList = .error (.sys .ENOENT) :=
  readAll_missing_collection dotDriver homeFS "c".toList (by decide) (by decide) (by decide)

/-- C6 fails as stated: after `Write("c.json", "x", v)` the directory `c` does not
exist (`os.Stat` gives `ENOENT`), yet `ReadAll("c")` succeeds with no records,
because `stat` finds the directory `c.json` and the error of `ioutil.ReadDir` is
dropped. -/
theorem readAll_missing_collection_succeeds :
    osStat (dotDriver.Write strCodec homeFS "c.json".toList "x".toList "V".toList).2.2
        (join [dotDriver.dir, "c".toList]) = .error .ENOENT ∧
    dotDriver.ReadAll (dotDriver.Write strCodec homeFS "c.json".toList "x".toList "V".toList).2.2
        "c".toList = .ok [] := by
  decide

theorem readAllLoop_ok (fs : FS) (dir : Str) (f : Str → Str) (files : List Str)
    (h : ∀ n ∈ files, readFile fs (join [dir, n]) = .ok (f n)) (records : List Str) :
    readAllLoop fs dir files records = .ok (records ++ files.map f) := by
  induction files generalizing records with
  | nil => simp [readAllLoop]
  | cons n rest ih =>
    simp only [readAllLoop, h n (by simp)]
    rw [ih (fun m hm => h m (by simp [hm]))]
    simp

theorem lookupE_ne_none_iff (es : Entries) (n : Str) :
    lookupE es n ≠ none ↔ n ∈ es.map Prod.fst := by
  induction es with
  | nil => simp [lookupE]
  | cons hd tl ih =>
    obtain ⟨k, w⟩ := hd
    by_cases hk : k = n
    · simp [lookupE, hk]
    · have hnk : ¬ n = k := fun e => hk e.symm
      simp only [lookupE, hk, if_false, ih, List.map_cons, List.mem_cons, hnk, false_or]

theorem mem_entryNames (es : Entries) (n : Str) :
    n ∈ entryNames es ↔ lookupE es n ≠ none := by
  rw [lookupE_ne_none_iff]
  unfold entryNames
  rw [(List.perm_insertionSort _ _).mem_iff, List.mem_dedup]

theorem nodup_entryNames (es : Entries) : (entryNames es).Nodup := by
  unfold entryNames
  rw [(List.perm_insertionSort _ _).nodup_iff]
  exact List.nodup_dedup _

/-- What `ReadAll` returns for a non-empty collection name when the collection
directory is a directory with entries `es`, all of them regular files with plain
names: the contents of the files in the order of the listing `entryNames es`,
which has every entry of the directory exactly once. -/
theorem readAll_of_directory (d : Driver) (fs : FS) (c : Str) (es : Entries)
    (hc : c ≠ [])
    (hdir : fs.node (join [d.dir, c]) = .ok (.dir es))
    (hplain : ∀ n ∈ entryNames es, PlainName n)
    (hfiles : ∀ n ∈ entryNames es, regularAt es n = true) :
    d.ReadAll fs c = .ok ((entryNames es).map (contentsOf es)) ∧
    (entryNames es).Nodup ∧
    (∀ n, n ∈ entryNames es ↔ lookupE es n ≠ none) ∧
    (es = [] → d.ReadAll fs c = .ok []) := by
  have hne : join [d.dir, c] ≠ [] := join_two_ne_nil _ _ (Or.inr hc)
  have hget : getIn fs.root (resolve fs.cwd (join [d.dir, c])) = .ok (.dir es) := by
    simpa [FS.node, hne] using hdir
  have hstat : stat fs (join [d.dir, c]) = .ok .dir :=
    stat_of_ok fs _ _ (by simp [osStat, hdir, Node.kind])
  have hread : ∀ n ∈ entryNames es,
      readFile fs (join [join [d.dir, c], n]) = .ok (contentsOf es n) := by
    intro n hn
    have hreg := hfiles n hn
    have hne' : join [join [d.dir, c], n] ≠ [] := join_two_ne_nil _ _ (Or.inl hne)
    simp only [readFile, FS.node, hne', if_false]
    rw [resolve_join_plain fs.cwd _ n hne (hplain n hn), getIn_snoc, hget]
    unfold regularAt at hreg
    unfold contentsOf
    cases hl : lookupE es n with
    | none => simp [hl] at hreg
    | some node =>
      cases node with
      | file data => simp [hl]
      | dir sub => simp [hl] at hreg
  have hmain : d.ReadAll fs c = .ok ((entryNames es).map (contentsOf es)) := by
    simp only [Driver.ReadAll, hc, if_false, hstat, readDir, hdir]
    rw [readAllLoop_ok fs _ (contentsOf es) _ hread]
    simp
  refine ⟨hmain, nodup_entryNames es, mem_entryNames es, ?_⟩
  intro he
  rw [hmain, he]
  rfl

/-! ## Delete (C10, C5) -/

theorem delete_directory_effect (d : Driver) (fs : FS) (c doc : Str)
    (hk : osStat fs (deleteTarget d c doc) = .ok .dir)
    (h1 : endsWithDot (deleteTarget d c doc) = false)
    (h2 : lastIsDotDot (deleteTarget d c doc) = false)
    (h3 : resolve fs.cwd (deleteTarget d c doc) ≠ []) :
    (d.Delete fs c doc).1 = none ∧
    (∀ r, kindAt (d.Delete fs c doc).2.2.root (resolve fs.cwd (deleteTarget d c doc) ++ r) =
      .error .ENOENT) ∧
    (∀ q, ¬ resolve fs.cwd (deleteTarget d c doc) <+: q →
      kindAt (d.Delete fs c doc).2.2.root q = kindAt fs.root q) := by
  have hne := osStat_ok_ne_nil fs _ _ hk
  have hkind : kindAt fs.root (resolve fs.cwd (deleteTarget d c doc)) = .ok .dir := by
    rw [← osStat_eq fs _ hne]; exact hk
  obtain ⟨sub, hsub⟩ := (kindAt_ok_dir _ _).mp hkind
  rw [delete_directory d fs c doc hk h1 h2 h3]
  exact ⟨rfl, dropIn_spec fs.root _ h3 _ hsub⟩

/-- C10, as the code has it: `Delete` does not validate names.  When the root
path is a cleaned path (as `New` makes it) that does not end in `.` or `..` and
is not `/`, and the root directory exists, `Delete("", "")` has the root
directory itself as target, returns no error and removes the root with everything
beneath it, leaving all other paths as they were; and for a plain collection name
`c` whose directory exists, `Delete(c, "")` returns no error and removes the
collection directory with everything beneath it, leaving all other paths as they
were. -/
theorem delete_without_names (d : Driver) (fs : FS) (c : Str) (hd : d.dir ≠ []) :
    (clean d.dir = d.dir → osStat fs d.dir = .ok .dir →
      endsWithDot d.dir = false → lastIsDotDot d.dir = false →
      resolve fs.cwd d.dir ≠ [] →
        deleteTarget d [] [] = d.dir ∧
        (d.Delete fs [] []).1 = none ∧
        (∀ r, kindAt (d.Delete fs [] []).2.2.root (resolve fs.cwd d.dir ++ r) =
          .error .ENOENT) ∧
        (∀ q, ¬ resolve fs.cwd d.dir <+: q →
          kindAt (d.Delete fs [] []).2.2.root q = kindAt fs.root q)) ∧
    (PlainName c → osStat fs (join [d.dir, c]) = .ok .dir →
        (d.Delete fs c []).1 = none ∧
        (∀ r, kindAt (d.Delete fs c []).2.2.root (resolve fs.cwd (join [d.dir, c]) ++ r) =
          .error .ENOENT) ∧
        (∀ q, ¬ resolve fs.cwd (join [d.dir, c]) <+: q →
          kindAt (d.Delete fs c []).2.2.root q = kindAt fs.root q)) := by
  constructor
  · intro hclean hroot h1 h2 h3
    have hT : deleteTarget d [] [] = d.dir := by
      unfold deleteTarget
      have e : join [([] : Str), []] = [] := by simp [join]
      rw [e, join_two _ _ hd, clean_trailing_slash _ hd, hclean]
    have := delete_directory_effect d fs [] [] (by rw [hT]; exact hroot) (by rw [hT]; exact h1)
      (by rw [hT]; exact h2) (by rw [hT]; exact h3)
    rw [hT] at this
    exact ⟨hT, this⟩
  · intro hc hk
    have hT := deleteTarget_collection d c hc
    have hrm : endsWithDot (join [d.dir, c]) = false ∧ lastIsDotDot (join [d.dir, c]) = false := by
      rw [join_two _ _ hd]; exact clean_snoc_removable d.dir c hd hc
    have hres : resolve fs.cwd (join [d.dir, c]) ≠ [] := by
      rw [resolve_join_plain fs.cwd _ _ hd hc]; simp
    have := delete_directory_effect d fs c [] (by rw [hT]; exact hk) (by rw [hT]; exact hrm.1)
      (by rw [hT]; exact hrm.2) (by rw [hT]; exact hres)
    rw [hT] at this
    exact this

theorem delete_without_names_witness :
    (rootedDriver.Delete sampleFS [] []).1 = none ∧
    (rootedDriver.Delete sampleFS "c".toList []).1 = none :=
  ⟨((delete_without_names rootedDriver sampleFS "c".toList (by decide)).1
      (by decide) (by decide) (by decide) (by decide) (by decide)).2.1,
    ((delete_without_names rootedDriver sampleFS "c".toList (by decide)).2
      (by decide) (by decide)).1⟩

/-- C10 fails as stated: with the root `./` of `main` (cleaned to `.`), which
exists, `Delete("", "")` returns the error `EINVAL` of `os.RemoveAll(".")` and
removes nothing: the document `c/x.json` is still there.  With the root `/`, and
with the root `..` seen from the directory `/w/c`, `Delete("", "")` returns an
error as well, since the system does not remove these directories.  And for the
collection name `.`, whose directory exists, `Delete(".", "")` returns `EINVAL`
too. -/
theorem delete_empty_names_keeps_dot_root :
    osStat sampleFS dotDriver.dir = .ok .dir ∧
    (dotDriver.Delete sampleFS [] []).1 = some (.sys .EINVAL) ∧
    osStat (dotDriver.Delete sampleFS [] []).2.2 "c/x.json".toList =
      .ok (.file "V\n".toList) ∧
    osStat sampleFS (join [dotDriver.dir, ".".toList]) = .ok .dir ∧
    (dotDriver.Delete sampleFS ".".toList []).1 = some (.sys .EINVAL) ∧
    ((freshDriver "/".toList none).Delete sampleFS [] []).1 ≠ none ∧
    ((freshDriver "..".toList none).Delete
      { sampleFS with cwd := ["w".toList, "c".toList] } [] []).1 ≠ none := by
  decide

theorem snoc_prefix_snoc (p : Path) (a b : Str) (h : (p ++ [a]) <+: (p ++ [b])) : a = b := by
  have h' : [a] <+: [b] := (List.prefix_append_right_inj p).mp h
  have := List.cons_prefix_cons.mp h'
  exact this.1

theorem append_ext_ne (doc e : Str) (he : e ≠ []) : doc ++ e ≠ doc := by
  intro h
  have := congrArg List.length h
  simp only [List.length_append] at this
  have hl : 0 < e.length := List.length_pos.mpr he
  omega

theorem getIn_below_file (es : Entries) (p : Path) (data : Str)
    (h : getIn es p = .ok (.file data)) (q : Path) (hq : p <+: q) (hne : q ≠ p) :
    getIn es q = .error .ENOTDIR := by
  induction p generalizing es q with
  | nil => simp [getIn] at h
  | cons c rest ih =>
    cases q with
    | nil => simp at hq
    | cons c' r =>
      obtain ⟨hc, hr⟩ := List.cons_prefix_cons.mp hq
      subst hc
      simp only [getIn] at h ⊢
      cases hl : lookupE es c with
      | none => simp [hl] at h
      | some n =>
        cases n with
        | file z =>
          simp only [hl] at h
          by_cases hrest : rest = []
          · subst hrest
            have : r ≠ [] := fun e => hne (by rw [e])
            simp [this]
          · simp [hrest] at h
        | dir sub =>
          simp only [hl] at h ⊢
          exact ih sub h r hr (fun e => hne (by rw [e]))

/-- What `Delete` does for a document stored under plain names whose path without
`.json` is not a directory: it removes the file of the document. -/
theorem delete_file (d : Driver) (fs : FS) (c doc data : Str) (hd : d.dir ≠ [])
    (hc : PlainName c) (hdoc : PlainName doc)
    (hfile : osStat fs (fnlPath d c doc) = .ok (.file data))
    (hnd : osStat fs (join [d.dir, c, doc]) ≠ .ok .dir) :
    d.Delete fs c doc =
      (none, (d.getOrCreateMutex c).2,
        { fs with root := dropIn fs.root (resolve fs.cwd (fnlPath d c doc)) }) := by
  have hR := record_ne_nil d c doc hd
  have hRj : join [d.dir, c, doc] ++ extJson ≠ [] := by simp [extJson]
  have hF := resolve_fnlPath fs.cwd d c doc hd hdoc.2.1
  have hRJ := resolve_record_json fs.cwd d c doc hd hdoc
  have hRr := resolve_record fs.cwd d c doc hd hdoc
  have hk : kindAt fs.root (resolve fs.cwd (join [d.dir, c]) ++ [doc ++ extJson]) =
      .ok (.file data) := by
    rw [← hF, ← osStat_eq fs _ (fnlPath_ne_nil d c doc)]; exact hfile
  have hjson : osStat fs (join [d.dir, c, doc] ++ extJson) = .ok (.file data) := by
    rw [osStat_eq fs _ hRj, hRJ]; exact hk
  have hnode : fs.node (join [d.dir, c, doc] ++ extJson) = .ok (.file data) := by
    have := (kindAt_ok_file _ _ _).mp hk
    simp only [FS.node, hRj, if_false, hRJ]
    exact this
  have hrm : osRemove fs (join [d.dir, c, doc] ++ extJson) =
      .ok { fs with root := dropIn fs.root (resolve fs.cwd (fnlPath d c doc)) } := by
    simp only [osRemove, hnode, hRJ, hF]
  have hstat : ∃ z, stat fs (join [d.dir, c, doc]) = .ok (.file z) := by
    rcases sibling_kind fs.root _ (doc ++ extJson) doc _ hk with ⟨k', hk'⟩ | hen
    · have hos : osStat fs (join [d.dir, c, doc]) = .ok k' := by
        rw [osStat_eq fs _ hR, hRr]; exact hk'
      cases k' with
      | dir => exact absurd hos hnd
      | file z => exact ⟨z, stat_of_ok fs _ _ hos⟩
    · have hos : osStat fs (join [d.dir, c, doc]) = .error .ENOENT := by
        rw [osStat_eq fs _ hR, hRr]; exact hen
      exact ⟨data, by rw [stat_of_enoent fs _ hos]; exact hjson⟩
  obtain ⟨z, hz⟩ := hstat
  simp only [Driver.Delete, getOrCreateMutex_dir]
  have hT := deleteTarget_plain d c doc hd hc hdoc
  unfold deleteTarget at hT
  rw [hT, hz]
  simp only [hrm]

/-- C5, as the code has it.  For plain names `c` and `doc` such that the file of
the document is a regular file and the path without `.json` is not a directory,
`Delete(c, doc)` returns no error and removes that file: afterwards `os.Stat` of
it and `Read(c, doc)` fail with `ENOENT`, every path that is not at or below the
file is as before, and every other file or directory is still there.  And when the
target of `Delete` is a directory whose path does not end in `.` or `..` and is
not `/`, `Delete` returns no error and removes the directory with everything
beneath it, all other paths being as before. -/
theorem delete_removes_target {V : Type} (cd : Codec V) (d : Driver) (fs : FS) (c doc : Str)
    (hd : d.dir ≠ []) :
    (∀ data, PlainName c → PlainName doc →
      osStat fs (fnlPath d c doc) = .ok (.file data) →
      osStat fs (join [d.dir, c, doc]) ≠ .ok .dir →
        (d.Delete fs c doc).1 = none ∧
        osStat (d.Delete fs c doc).2.2 (fnlPath d c doc) = .error .ENOENT ∧
        (∀ out, (d.Delete fs c doc).2.1.Read cd (d.Delete fs c doc).2.2 c doc out =
          (some (.sys .ENOENT), out)) ∧
        (∀ q, ¬ resolve fs.cwd (fnlPath d c doc) <+: q →
          kindAt (d.Delete fs c doc).2.2.root q = kindAt fs.root q) ∧
        (∀ q k, q ≠ resolve fs.cwd (fnlPath d c doc) → kindAt fs.root q = .ok k →
          kindAt (d.Delete fs c doc).2.2.root q = .ok k)) ∧
    (osStat fs (deleteTarget d c doc) = .ok .dir →
      endsWithDot (deleteTarget d c doc) = false →
      lastIsDotDot (deleteTarget d c doc) = false →
      resolve fs.cwd (deleteTarget d c doc) ≠ [] →
        (d.Delete fs c doc).1 = none ∧
        (∀ r, kindAt (d.Delete fs c doc).2.2.root
          (resolve fs.cwd (deleteTarget d c doc) ++ r) = .error .ENOENT) ∧
        (∀ q, ¬ resolve fs.cwd (deleteTarget d c doc) <+: q →
          kindAt (d.Delete fs c doc).2.2.root q = kindAt fs.root q)) := by
  refine ⟨?_, delete_directory_effect d fs c doc⟩
  intro data hc hdoc hfile hnd
  have hF := resolve_fnlPath fs.cwd d c doc hd hdoc.2.1
  have hRJ := resolve_record_json fs.cwd d c doc hd hdoc
  have hRr := resolve_record fs.cwd d c doc hd hdoc
  have hR := record_ne_nil d c doc hd
  have hRj : join [d.dir, c, doc] ++ extJson ≠ [] := by simp [extJson]
  have hk : kindAt fs.root (resolve fs.cwd (fnlPath d c doc)) = .ok (.file data) := by
    rw [← osStat_eq fs _ (fnlPath_ne_nil d c doc)]; exact hfile
  have hget := (kindAt_ok_file _ _ _).mp hk
  have hPne : resolve fs.cwd (fnlPath d c doc) ≠ [] := by rw [hF]; simp
  obtain ⟨hgone, hframe⟩ := dropIn_spec fs.root _ hPne _ hget
  rw [delete_file d fs c doc data hd hc hdoc hfile hnd]
  simp only
  have hgone0 : kindAt (dropIn fs.root (resolve fs.cwd (fnlPath d c doc)))
      (resolve fs.cwd (fnlPath d c doc)) = .error .ENOENT := by
    simpa using hgone []
  refine ⟨trivial, ?_, ?_, hframe, ?_⟩
  · rw [osStat_eq _ _ (fnlPath_ne_nil d c doc)]
    exact hgone0
  · intro out
    have hrec : kindAt (dropIn fs.root (resolve fs.cwd (fnlPath d c doc)))
        (resolve fs.cwd (join [d.dir, c]) ++ [doc]) =
        kindAt fs.root (resolve fs.cwd (join [d.dir, c]) ++ [doc]) := by
      apply hframe
      rw [hF]
      intro hp
      exact append_ext_ne doc extJson (by decide) (snoc_prefix_snoc _ _ _ hp)
    have hjson' : osStat { fs with root := dropIn fs.root (resolve fs.cwd (fnlPath d c doc)) }
        (join [d.dir, c, doc] ++ extJson) = .error .ENOENT := by
      rw [osStat_eq _ _ hRj]
      simp only [hRJ, ← hF]
      exact hgone0
    have hread' : readFile { fs with root := dropIn fs.root (resolve fs.cwd (fnlPath d c doc)) }
        (join [d.dir, c, doc] ++ extJson) = .error .ENOENT := by
      rw [readFile_eq _ _ hRj]
      simp only [hRJ, ← hF, hgone0]
    have hk' : kindAt fs.root (resolve fs.cwd (join [d.dir, c]) ++ [doc ++ extJson]) =
        .ok (.file data) := by rw [← hF]; exact hk
    simp only [Driver.Read, hc.1, hdoc.1, if_false, getOrCreateMutex_dir]
    rcases sibling_kind fs.root _ (doc ++ extJson) doc _ hk' with ⟨k', hk''⟩ | hen
    · have hos : osStat { fs with root := dropIn fs.root (resolve fs.cwd (fnlPath d c doc)) }
          (join [d.dir, c, doc]) = .ok k' := by
        rw [osStat_eq _ _ hR]
        simp only [hRr, hrec, hk'']
      rw [stat_of_ok _ _ _ hos]
      simp only [hread']
    · have hos : osStat { fs with root := dropIn fs.root (resolve fs.cwd (fnlPath d c doc)) }
          (join [d.dir, c, doc]) = .error .ENOENT := by
        rw [osStat_eq _ _ hR]
        simp only [hRr, hrec, hen]
      rw [stat_of_enoent _ _ hos, hjson']
  · intro q k hq hkq
    rw [hframe q]
    · exact hkq
    · intro hp
      have := getIn_below_file fs.root _ data hget q hp hq
      rw [← kindAt_error] at this
      rw [this] at hkq
      cases hkq

theorem delete_removes_target_witness :
    (rootedDriver.Delete sampleFS "c".toList "x".toList).1 = none ∧
    (rootedDriver.Delete sampleFS "c".toList []).1 = none :=
  ⟨((delete_removes_target strCodec rootedDriver sampleFS "c".toList "x".toList (by decide)).1
      "V\n".toList (by decide) (by decide) (by decide) (by decide)).1,
    ((delete_removes_target strCodec rootedDriver sampleFS "c".toList [] (by decide)).2
      (by decide) (by decide) (by decide) (by decide)).1⟩

/-- C5 fails as stated.  In a store where the document `x` of the collection `c`
has been written (`c/x.json` is a regular file) and `c/x` is a directory,
`Delete("c", "x")` returns no error but removes the directory `c/x` with the
document in it and leaves `c/x.json` in place.  After `Write("c", ".", v)` the
file of the document exists, and `Delete("c", ".")` removes the whole collection
`c`, the other document `c/x.json` included.  After `Write("/..", "x", v)` the
file of the document exists, and `Delete("/..", "x")` fails with `unable to find
the file` and leaves it there.  And with the root `.` of `main`, the target of
`Delete("", "")` is a directory, yet the call returns `EINVAL` and removes
nothing. -/
theorem delete_keeps_document_beside_directory :
    (osStat nestedFS (fnlPath rootedDriver "c".toList "x".toList) = .ok (.file "V\n".toList) ∧
      (rootedDriver.Delete nestedFS "c".toList "x".toList).1 = none ∧
      osStat (rootedDriver.Delete nestedFS "c".toList "x".toList).2.2
        (fnlPath rootedDriver "c".toList "x".toList) = .ok (.file "V\n".toList) ∧
      osStat (rootedDriver.Delete nestedFS "c".toList "x".toList).2.2
        "/w/c/x/y.json".toList = .error .ENOENT) ∧
    (osStat (rootedDriver.Write strCodec sampleFS "c".toList ".".toList "V".toList).2.2
        (fnlPath rootedDriver "c".toList ".".toList) = .ok (.file "V\n".toList) ∧
      (rootedDriver.Delete
        (rootedDriver.Write strCodec sampleFS "c".toList ".".toList "V".toList).2.2
        "c".toList ".".toList).1 = none ∧
      osStat (rootedDriver.Delete
        (rootedDriver.Write strCodec sampleFS "c".toList ".".toList "V".toList).2.2
        "c".toList ".".toList).2.2 "/w/c/x.json".toList = .error .ENOENT) ∧
    (osStat (rootedDriver.Write strCodec sampleFS "/..".toList "x".toList "V".toList).2.2
        (fnlPath rootedDriver "/..".toList "x".toList) = .ok (.file "V\n".toList) ∧
      (rootedDriver.Delete
        (rootedDriver.Write strCodec sampleFS "/..".toList "x".toList "V".toList).2.2
        "/..".toList "x".toList).1 = some .unableToFind) ∧
    (osStat nestedFS (deleteTarget dotDriver [] []) = .ok .dir ∧
      (dotDriver.Delete nestedFS [] []).1 = some (.sys .EINVAL) ∧
      osStat (dotDriver.Delete nestedFS [] []).2.2 "/w/c/x/y.json".toList =
        .ok (.file "W\n".toList)) := by
  decide

/-! ## Write (C2, C1) -/

theorem osMkdirAll_ok (fs fs1 : FS) (s : Str) (h : osMkdirAll fs s = .ok fs1) :
    fs1.cwd = fs.cwd ∧ mkdirAllIn fs.root (resolve fs.cwd s) = .ok fs1.root := by
  unfold osMkdirAll at h
  by_cases hs : s = []
  · simp [hs] at h
  · simp only [hs, if_false] at h
    cases hm : mkdirAllIn fs.root (resolve fs.cwd s) with
    | error e => simp [hm] at h
    | ok es =>
      simp only [hm, Except.ok.injEq] at h
      subst h
      exact ⟨rfl, rfl⟩

theorem writeFile_ok (fs fs2 : FS) (s b : Str) (h : writeFile fs s b = .ok fs2) :
    fs2.cwd = fs.cwd ∧ putIn fs.root (.file b) (resolve fs.cwd s) = .ok fs2.root := by
  unfold writeFile at h
  by_cases hs : s = []
  · simp [hs] at h
  · simp only [hs, if_false] at h
    cases hp : putIn fs.root (.file b) (resolve fs.cwd s) with
    | error e =>
      rw [hp] at h
      split at h <;> simp at h
    | ok es =>
      rw [hp] at h
      split at h
      · simp at h
      · simp only [Except.ok.injEq] at h
        subst h
        exact ⟨rfl, rfl⟩

theorem osRename_ok (fs fs3 : FS) (old new : Str) (b : Str)
    (hn : fs.node old = .ok (.file b)) (hne : resolve fs.cwd old ≠ resolve fs.cwd new)
    (h : osRename fs old new = .ok fs3) :
    fs3.cwd = fs.cwd ∧
      putIn (dropIn fs.root (resolve fs.cwd old)) (.file b) (resolve fs.cwd new) =
        .ok fs3.root := by
  unfold osRename at h
  split at h
  · simp [hn, hne] at h
  · simp at h
  · simp only [hn] at h
    by_cases hnew : new = []
    · simp [hnew] at h
    · simp only [hnew, if_false, hne] at h
      split at h
      · simp at h
      · cases hp : putIn (dropIn fs.root (resolve fs.cwd old)) (.file b)
            (resolve fs.cwd new) with
        | error e => simp [hp] at h
        | ok es =>
          simp only [hp, Except.ok.injEq] at h
          subst h
          exact ⟨rfl, rfl⟩

theorem not_snoc_prefix (p : Path) (x : Str) : ¬ (p ++ [x]) <+: p := by
  intro h
  have := h.length_le
  simp at this

theorem tmp_not_prefix_fnl (p : Path) (doc : Str) :
    ¬ (p ++ [doc ++ extJson ++ extTmp]) <+: (p ++ [doc ++ extJson]) := by
  intro h
  exact append_ext_ne (doc ++ extJson) extTmp (by decide) (snoc_prefix_snoc _ _ _ h)

theorem tmpPath_ne_nil (d : Driver) (c doc : Str) : fnlPath d c doc ++ extTmp ≠ [] := by
  simp [extTmp]

/-- The three steps of `Write` seen from the final path, for a document name
without separator: creating the collection directory and writing the temporary
file leave the final path as it is, and the rename puts the written bytes there. -/
theorem write_steps (d : Driver) (c doc : Str) (hd : d.dir ≠ []) (hdoc : '/' ∉ doc) :
    (∀ fs fs1, osMkdirAll fs (join [d.dir, c]) = .ok fs1 →
      osStat fs1 (fnlPath d c doc) = osStat fs (fnlPath d c doc)) ∧
    (∀ fs1 fs2 b, writeFile fs1 (fnlPath d c doc ++ extTmp) b = .ok fs2 →
      osStat fs2 (fnlPath d c doc) = osStat fs1 (fnlPath d c doc) ∧
      fs2.node (fnlPath d c doc ++ extTmp) = .ok (.file b)) ∧
    (∀ fs2 fs3 b, fs2.node (fnlPath d c doc ++ extTmp) = .ok (.file b) →
      osRename fs2 (fnlPath d c doc ++ extTmp) (fnlPath d c doc) = .ok fs3 →
      osStat fs3 (fnlPath d c doc) = .ok (.file b)) := by
  have hF := fnlPath_ne_nil d c doc
  have hT := tmpPath_ne_nil d c doc
  refine ⟨?_, ?_, ?_⟩
  · intro fs fs1 h
    obtain ⟨hcwd, hm⟩ := osMkdirAll_ok fs fs1 _ h
    rw [osStat_eq _ _ hF, osStat_eq _ _ hF, hcwd]
    apply (mkdirAllIn_spec _ _ _ hm _).2
    rw [resolve_fnlPath fs.cwd d c doc hd hdoc]
    exact not_snoc_prefix _ _
  · intro fs1 fs2 b h
    obtain ⟨hcwd, hp⟩ := writeFile_ok fs1 fs2 _ b h
    constructor
    · rw [osStat_eq _ _ hF, osStat_eq _ _ hF, hcwd]
      apply putIn_frame _ _ _ _ hp
      rw [resolve_fnlPath fs1.cwd d c doc hd hdoc, resolve_tmpPath fs1.cwd d c doc hd hdoc]
      exact tmp_not_prefix_fnl _ _
    · simp only [FS.node, hT, if_false, hcwd]
      exact putIn_get _ _ _ _ hp
  · intro fs2 fs3 b hn h
    have hne : resolve fs2.cwd (fnlPath d c doc ++ extTmp) ≠ resolve fs2.cwd (fnlPath d c doc) := by
      rw [resolve_fnlPath fs2.cwd d c doc hd hdoc, resolve_tmpPath fs2.cwd d c doc hd hdoc]
      intro e
      exact tmp_not_prefix_fnl _ doc (by rw [e])
    obtain ⟨hcwd, hp⟩ := osRename_ok fs2 fs3 _ _ b hn hne h
    rw [osStat_eq _ _ hF, hcwd]
    exact (kindAt_ok_file _ _ _).mpr (putIn_get _ _ _ _ hp)

/-- C2, as the code has it, for a document name without path separator.  In every
state that `Write` goes through (before the call, after creating the collection
directory, after writing the temporary file, after the rename), `os.Stat` of the
final path reports what it reported before the call or a regular file holding the
complete encoding of the value with its newline; the state `Write` returns is one
of these states; a `Write` that returns an error leaves the final path as it was;
and writing any bytes at all to the temporary file leaves the final path as it
was. -/
theorem write_replaces_atomically {V : Type} (cd : Codec V) (d : Driver) (fs : FS)
    (c doc : Str) (v : V) (hd : d.dir ≠ []) (hdoc : '/' ∉ doc) :
    (∀ s ∈ d.writeStates cd fs c doc v,
      osStat s (fnlPath d c doc) = osStat fs (fnlPath d c doc) ∨
      ∃ b, encoding cd v = some b ∧ osStat s (fnlPath d c doc) = .ok (.file b)) ∧
    (d.Write cd fs c doc v).2.2 ∈ d.writeStates cd fs c doc v ∧
    ((d.Write cd fs c doc v).1 ≠ none →
      osStat (d.Write cd fs c doc v).2.2 (fnlPath d c doc) = osStat fs (fnlPath d c doc)) ∧
    (∀ fs1 fs2 x, osMkdirAll fs (join [d.dir, c]) = .ok fs1 →
      writeFile fs1 (fnlPath d c doc ++ extTmp) x = .ok fs2 →
      osStat fs2 (fnlPath d c doc) = osStat fs (fnlPath d c doc)) := by
  obtain ⟨s1, s2, s3⟩ := write_steps d c doc hd hdoc
  have hlast : ∀ fs1 fs2 x, osMkdirAll fs (join [d.dir, c]) = .ok fs1 →
      writeFile fs1 (fnlPath d c doc ++ extTmp) x = .ok fs2 →
      osStat fs2 (fnlPath d c doc) = osStat fs (fnlPath d c doc) := by
    intro fs1 fs2 x h1 h2
    rw [(s2 fs1 fs2 x h2).1, s1 fs fs1 h1]
  have habc : (∀ s ∈ d.writeStates cd fs c doc v,
        osStat s (fnlPath d c doc) = osStat fs (fnlPath d c doc) ∨
        ∃ b, encoding cd v = some b ∧ osStat s (fnlPath d c doc) = .ok (.file b)) ∧
      (d.Write cd fs c doc v).2.2 ∈ d.writeStates cd fs c doc v ∧
      ((d.Write cd fs c doc v).1 ≠ none →
        osStat (d.Write cd fs c doc v).2.2 (fnlPath d c doc) =
          osStat fs (fnlPath d c doc)) := by
    by_cases hc : c = []
    · simp [Driver.writeStates, Driver.Write, hc]
    by_cases hdn : doc = []
    · simp [Driver.writeStates, Driver.Write, hc, hdn]
    simp only [Driver.writeStates, Driver.Write, hc, hdn, if_false, getOrCreateMutex_dir]
    have hfold : join [join [d.dir, c], doc ++ extJson] = fnlPath d c doc := rfl
    simp only [hfold]
    cases h1 : osMkdirAll fs (join [d.dir, c]) with
    | error e => simp
    | ok fs1 =>
      have e1 := s1 fs fs1 h1
      cases hm : cd.marshalIndent v with
      | none => simp [e1]
      | some b =>
        have henc : encoding cd v = some (b ++ ['\n']) := by simp [encoding, hm]
        cases h2 : writeFile fs1 (fnlPath d c doc ++ extTmp) (b ++ ['\n']) with
        | error e => simp [e1, h2]
        | ok fs2 =>
          obtain ⟨e2, n2⟩ := s2 fs1 fs2 _ h2
          have e12 : osStat fs2 (fnlPath d c doc) = osStat fs (fnlPath d c doc) := by
            rw [e2, e1]
          cases h3 : osRename fs2 (fnlPath d c doc ++ extTmp) (fnlPath d c doc) with
          | error e => simp [e1, e12, h2, h3]
          | ok fs3 =>
            have e3 := s3 fs2 fs3 _ n2 h3
            simp [e1, e12, e3, henc, h2, h3]
  exact ⟨habc.1, habc.2.1, habc.2.2, hlast⟩

theorem write_replaces_atomically_witness :
    (dotDriver.Write strCodec homeFS "c".toList "x".toList "V".toList).2.2 ∈
      dotDriver.writeStates strCodec homeFS "c".toList "x".toList "V".toList :=
  (write_replaces_atomically strCodec dotDriver homeFS "c".toList "x".toList "V".toList
    (by decide) (by decide)).2.1

/-- C2 fails as stated: `Write("x.json", "../x", v)` has the final path `x.json`,
which is also its collection directory.  Before the call nothing is there; after
`os.MkdirAll` a directory is there, which is neither what was there before nor the
encoding of the value; the rename then fails with `EEXIST` and `Write` returns
that error with the final path changed. -/
theorem write_makes_directory_at_final_path :
    (dotDriver.writeStates strCodec homeFS "x.json".toList "../x".toList "V".toList).map
        (fun s => osStat s (fnlPath dotDriver "x.json".toList "../x".toList)) =
      [.error .ENOENT, .ok .dir, .ok .dir] ∧
    (dotDriver.Write strCodec homeFS "x.json".toList "../x".toList "V".toList).1 =
      some (.sys .EEXIST) ∧
    osStat (dotDriver.Write strCodec homeFS "x.json".toList "../x".toList "V".toList).2.2
      (fnlPath dotDriver "x.json".toList "../x".toList) = .ok .dir := by
  decide

/-- What `Read` does when the file of the document is a regular file: it decodes
the contents of that file. -/
theorem read_of_file {V : Type} (cd : Codec V) (d d' : Driver) (fs : FS) (c doc data : Str)
    (out : V) (hdir : d'.dir = d.dir) (hd : d.dir ≠ []) (hc : c ≠ []) (hdoc : PlainName doc)
    (hfile : osStat fs (fnlPath d c doc) = .ok (.file data)) :
    readFile fs (join [d.dir, c, doc] ++ extJson) = .ok data ∧
    d'.Read cd fs c doc out =
      match cd.unmarshal data out with
      | (v', true) => (none, v')
      | (v', false) => (some .unmarshal, v') := by
  have hR := record_ne_nil d c doc hd
  have hRj : join [d.dir, c, doc] ++ extJson ≠ [] := by simp [extJson]
  have hF := resolve_fnlPath fs.cwd d c doc hd hdoc.2.1
  have hRJ := resolve_record_json fs.cwd d c doc hd hdoc
  have hRr := resolve_record fs.cwd d c doc hd hdoc
  have hk : kindAt fs.root (resolve fs.cwd (join [d.dir, c]) ++ [doc ++ extJson]) =
      .ok (.file data) := by
    rw [← hF, ← osStat_eq fs _ (fnlPath_ne_nil d c doc)]; exact hfile
  have hjson : osStat fs (join [d.dir, c, doc] ++ extJson) = .ok (.file data) := by
    rw [osStat_eq fs _ hRj, hRJ]; exact hk
  have hread : readFile fs (join [d.dir, c, doc] ++ extJson) = .ok data := by
    rw [readFile_eq fs _ hRj, hRJ, hk]
  have hstat : ∃ k, stat fs (join [d.dir, c, doc]) = .ok k := by
    rcases sibling_kind fs.root _ (doc ++ extJson) doc _ hk with ⟨k', hk'⟩ | hen
    · exact ⟨k', stat_of_ok fs _ _ (by rw [osStat_eq fs _ hR, hRr]; exact hk')⟩
    · exact ⟨_, by
        rw [stat_of_enoent fs _ (by rw [osStat_eq fs _ hR, hRr]; exact hen)]; exact hjson⟩
  obtain ⟨k, hk2⟩ := hstat
  refine ⟨hread, ?_⟩
  simp only [Driver.Read, hc, hdoc.1, if_false, hdir, hk2, hread]

/-- What a `Write` without error has done, for a document name without separator:
the value was encoded and the final path is a regular file with the encoding and
its newline. -/
theorem write_success {V : Type} (cd : Codec V) (d : Driver) (fs : FS) (c doc : Str) (v : V)
    (hd : d.dir ≠ []) (hdoc : '/' ∉ doc) (hw : (d.Write cd fs c doc v).1 = none) :
    c ≠ [] ∧ doc ≠ [] ∧ (d.Write cd fs c doc v).2.1.dir = d.dir ∧
    ∃ b, cd.marshalIndent v = some b ∧
      osStat (d.Write cd fs c doc v).2.2 (fnlPath d c doc) = .ok (.file (b ++ ['\n'])) := by
  obtain ⟨_, s2, s3⟩ := write_steps d c doc hd hdoc
  by_cases hc : c = []
  · simp [Driver.Write, hc] at hw
  by_cases hdn : doc = []
  · simp [Driver.Write, hc, hdn] at hw
  refine ⟨hc, hdn, ?_⟩
  simp only [Driver.Write, hc, hdn, if_false, getOrCreateMutex_dir] at hw ⊢
  have hfold : join [join [d.dir, c], doc ++ extJson] = fnlPath d c doc := rfl
  simp only [hfold] at hw ⊢
  cases h1 : osMkdirAll fs (join [d.dir, c]) with
  | error e => simp [h1] at hw
  | ok fs1 =>
    cases hm : cd.marshalIndent v with
    | none => simp [h1, hm] at hw
    | some b =>
      cases h2 : writeFile fs1 (fnlPath d c doc ++ extTmp) (b ++ ['\n']) with
      | error e => simp [h1, hm, h2] at hw
      | ok fs2 =>
        cases h3 : osRename fs2 (fnlPath d c doc ++ extTmp) (fnlPath d c doc) with
        | error e => simp [h1, hm, h2, h3] at hw
        | ok fs3 =>
          have e3 := s3 fs2 fs3 _ (s2 fs1 fs2 _ h2).2 h3
          simp [h2, h3, e3, getOrCreateMutex_dir]

/-- C1, as the code has it: for a plain document name and a value whose encoding
the decoder maps back to the value, a `Write` that returns no error is followed by
a `Read` that returns no error and leaves the value in `out`, whatever `out` held;
the final path is then a regular file holding the encoding and one newline, and
these are the bytes `Read` reads. -/
theorem write_then_read {V : Type} (cd : Codec V) (d : Driver) (fs : FS) (c doc : Str) (v : V)
    (hd : d.dir ≠ []) (hdoc : PlainName doc)
    (hrt : ∀ b out, cd.marshalIndent v = some b → cd.unmarshal (b ++ ['\n']) out = (v, true))
    (hw : (d.Write cd fs c doc v).1 = none) :
    ∃ b, cd.marshalIndent v = some b ∧
      osStat (d.Write cd fs c doc v).2.2 (fnlPath d c doc) = .ok (.file (b ++ ['\n'])) ∧
      readFile (d.Write cd fs c doc v).2.2 (join [d.dir, c, doc] ++ extJson) =
        .ok (b ++ ['\n']) ∧
      ∀ out, (d.Write cd fs c doc v).2.1.Read cd (d.Write cd fs c doc v).2.2 c doc out =
        (none, v) := by
  obtain ⟨hc, _, hdir, b, hm, hfile⟩ := write_success cd d fs c doc v hd hdoc.2.1 hw
  refine ⟨b, hm, hfile, ?_, ?_⟩
  · exact (read_of_file cd d d _ c doc _ v rfl hd hc hdoc hfile).1
  · intro out
    rw [(read_of_file cd d _ _ c doc _ out hdir hd hc hdoc hfile).2, hrt b out hm]

theorem write_then_read_witness :
    ∃ b, numberCodec.marshalIndent "22".toList = some b ∧
      osStat (dotDriver.Write numberCodec homeFS "unicorns".toList "Jason".toList
        "22".toList).2.2 (fnlPath dotDriver "unicorns".toList "Jason".toList) =
        .ok (.file (b ++ ['\n'])) ∧
      readFile (dotDriver.Write numberCodec homeFS "unicorns".toList "Jason".toList
        "22".toList).2.2 (join [dotDriver.dir, "unicorns".toList, "Jason".toList] ++ extJson) =
        .ok (b ++ ['\n']) ∧
      ∀ out, (dotDriver.Write numberCodec homeFS "unicorns".toList "Jason".toList
          "22".toList).2.1.Read numberCodec
        (dotDriver.Write numberCodec homeFS "unicorns".toList "Jason".toList "22".toList).2.2
        "unicorns".toList "Jason".toList out = (none, "22".toList) :=
  write_then_read numberCodec dotDriver homeFS "unicorns".toList "Jason".toList "22".toList
    (by decide) (by decide)
    (by
      intro b out h
      have hb : numberCodec.marshalIndent "22".toList = some "22".toList := by decide
      rw [hb] at h
      cases h
      rfl)
    (by decide)

/-- C1 fails as stated.  With the document name `.`, `Write("c", ".", v)` returns
no error (it writes `c/..json`), and the `Read("c", ".", out)` that follows fails
with `ENOENT`, because it looks for `c.json`.  And the encoder accepts the empty
`json.Number`, writing `0`: the `Read` after that `Write` returns no error and
leaves `0` in `out`, not the empty `Number`. -/
theorem read_after_write_fails :
    (dotDriver.Write strCodec homeFS "c".toList ".".toList "V".toList).1 = none ∧
    ((dotDriver.Write strCodec homeFS "c".toList ".".toList "V".toList).2.1.Read strCodec
      (dotDriver.Write strCodec homeFS "c".toList ".".toList "V".toList).2.2
      "c".toList ".".toList []).1 = some (.sys .ENOENT) ∧
    (dotDriver.Write numberCodec homeFS "c".toList "x".toList []).1 = none ∧
    (dotDriver.Write numberCodec homeFS "c".toList "x".toList []).2.1.Read numberCodec
      (dotDriver.Write numberCodec homeFS "c".toList "x".toList []).2.2
      "c".toList "x".toList [] = (none, "0".toList) := by
  decide

/-! ## Documents never written (C4) -/

theorem prefix_same_length {p q : Path} (h : p <+: q) (hl : p.length = q.length) : p = q :=
  h.eq_of_length hl

theorem snoc2_eq (r : Path) (a b a' b' : Str) (h : r ++ [a, b] = r ++ [a', b']) :
    a = a' ∧ b = b' := by
  have := List.append_cancel_left h
  simp at this
  exact this

/-- How one `Write` with plain names changes what is two levels below the root:
a path there names what it named before, or nothing, or it is the final or the
temporary path of the document and is a regular file. -/
theorem write_transitions {V : Type} (cd : Codec V) (d : Driver) (fs : FS) (c' d' : Str) (v : V)
    (hd : d.dir ≠ []) (hc : PlainName c') (hdoc : PlainName d') :
    (d.Write cd fs c' d' v).2.1.dir = d.dir ∧ (d.Write cd fs c' d' v).2.2.cwd = fs.cwd ∧
    ∀ c n,
      kindAt (d.Write cd fs c' d' v).2.2.root (resolve fs.cwd d.dir ++ [c, n]) =
        kindAt fs.root (resolve fs.cwd d.dir ++ [c, n]) ∨
      kindAt (d.Write cd fs c' d' v).2.2.root (resolve fs.cwd d.dir ++ [c, n]) =
        .error .ENOENT ∨
      ((∃ b, kindAt (d.Write cd fs c' d' v).2.2.root (resolve fs.cwd d.dir ++ [c, n]) =
          .ok (.file b)) ∧
        c = c' ∧ (n = d' ++ extJson ∨ n = d' ++ extJson ++ extTmp)) := by
  have hP : ∀ cwd, resolve cwd (join [d.dir, c']) = resolve cwd d.dir ++ [c'] :=
    fun cwd => resolve_join_plain cwd _ _ hd hc
  have hFp : ∀ cwd, resolve cwd (fnlPath d c' d') = resolve cwd d.dir ++ [c', d' ++ extJson] := by
    intro cwd; rw [resolve_fnlPath cwd d c' d' hd hdoc.2.1, hP]; simp
  have hTp : ∀ cwd, resolve cwd (fnlPath d c' d' ++ extTmp) =
      resolve cwd d.dir ++ [c', d' ++ extJson ++ extTmp] := by
    intro cwd; rw [resolve_tmpPath cwd d c' d' hd hdoc.2.1, hP]; simp
  have hT := tmpPath_ne_nil d c' d'
  simp only [Driver.Write, hc.1, hdoc.1, if_false, getOrCreateMutex_dir]
  have hfold : join [join [d.dir, c'], d' ++ extJson] = fnlPath d c' d' := rfl
  simp only [hfold]
  cases h1 : osMkdirAll fs (join [d.dir, c']) with
  | error e => exact ⟨getOrCreateMutex_dir d c', rfl, fun c n => Or.inl rfl⟩
  | ok fs1 =>
    obtain ⟨hcwd1, hm⟩ := osMkdirAll_ok fs fs1 _ h1
    have a1 : ∀ c n, kindAt fs1.root (resolve fs.cwd d.dir ++ [c, n]) =
        kindAt fs.root (resolve fs.cwd d.dir ++ [c, n]) := by
      intro c n
      apply (mkdirAllIn_spec _ _ _ hm _).2
      rw [hP]
      intro hpre
      have := hpre.length_le
      simp at this
    cases hmar : cd.marshalIndent v with
    | none => exact ⟨getOrCreateMutex_dir d c', hcwd1, fun c n => Or.inl (a1 c n)⟩
    | some b =>
      simp only
      cases h2 : writeFile fs1 (fnlPath d c' d' ++ extTmp) (b ++ ['\n']) with
      | error e => exact ⟨getOrCreateMutex_dir d c', hcwd1, fun c n => Or.inl (a1 c n)⟩
      | ok fs2 =>
        dsimp only
        obtain ⟨hcwd2, hp2⟩ := writeFile_ok fs1 fs2 _ _ h2
        rw [hcwd1, hTp] at hp2
        have a2 : ∀ c n,
            kindAt fs2.root (resolve fs.cwd d.dir ++ [c, n]) =
              kindAt fs.root (resolve fs.cwd d.dir ++ [c, n]) ∨
            ((∃ x, kindAt fs2.root (resolve fs.cwd d.dir ++ [c, n]) = .ok (.file x)) ∧
              c = c' ∧ (n = d' ++ extJson ∨ n = d' ++ extJson ++ extTmp)) := by
          intro c n
          by_cases hq : resolve fs.cwd d.dir ++ [c', d' ++ extJson ++ extTmp] =
              resolve fs.cwd d.dir ++ [c, n]
          · right
            obtain ⟨e1, e2⟩ := snoc2_eq _ _ _ _ _ hq
            refine ⟨⟨b ++ ['\n'], ?_⟩, e1.symm, Or.inr e2.symm⟩
            rw [← hq]
            exact (kindAt_ok_file _ _ _).mpr (putIn_get _ _ _ _ hp2)
          · left
            rw [putIn_frame _ _ _ _ hp2 _ (fun hpre => hq (prefix_same_length hpre (by simp))),
              a1]
        have hnode : fs2.node (fnlPath d c' d' ++ extTmp) = .ok (.file (b ++ ['\n'])) := by
          simp only [FS.node, hT, if_false, hcwd2, hcwd1, hTp]
          exact putIn_get _ _ _ _ hp2
        cases h3 : osRename fs2 (fnlPath d c' d' ++ extTmp) (fnlPath d c' d') with
        | error e =>
          refine ⟨getOrCreateMutex_dir d c', hcwd2.trans hcwd1, fun c n => ?_⟩
          rcases a2 c n with h | h
          · exact Or.inl h
          · exact Or.inr (Or.inr h)
        | ok fs3 =>
          have hne : resolve fs2.cwd (fnlPath d c' d' ++ extTmp) ≠
              resolve fs2.cwd (fnlPath d c' d') := by
            rw [hFp, hTp]
            intro e
            exact append_ext_ne (d' ++ extJson) extTmp (by decide) (snoc2_eq _ _ _ _ _ e).2
          obtain ⟨hcwd3, hp3⟩ := osRename_ok fs2 fs3 _ _ _ hnode hne h3
          rw [hcwd2, hcwd1, hFp, hTp] at hp3
          refine ⟨getOrCreateMutex_dir d c', hcwd3.trans (hcwd2.trans hcwd1), fun c n => ?_⟩
          by_cases hq : resolve fs.cwd d.dir ++ [c', d' ++ extJson] =
              resolve fs.cwd d.dir ++ [c, n]
          · right; right
            obtain ⟨e1, e2⟩ := snoc2_eq _ _ _ _ _ hq
            refine ⟨⟨b ++ ['\n'], ?_⟩, e1.symm, Or.inl e2.symm⟩
            rw [← hq]
            exact (kindAt_ok_file _ _ _).mpr (putIn_get _ _ _ _ hp3)
          · rw [putIn_frame _ _ _ _ hp3 _ (fun hpre => hq (prefix_same_length hpre (by simp)))]
            rcases dropIn_same_or_gone (resolve fs.cwd d.dir ++ [c', d' ++ extJson ++ extTmp])
              fs2.root (resolve fs.cwd d.dir ++ [c, n]) with h | h
            · rw [h]
              rcases a2 c n with h' | h'
              · exact Or.inl h'
              · exact Or.inr (Or.inr h')
            · exact Or.inr (Or.inl h)

theorem json_ne_tmp (x y : Str) : x ++ extJson ≠ y ++ extJson ++ extTmp := by
  intro h
  have h1 : (x ++ extJson).getLast? = some 'n' := by
    rw [List.getLast?_append_of_ne_nil x (by decide : extJson ≠ [])]
    rfl
  have h2 : (y ++ extJson ++ extTmp).getLast? = some 'p' := by
    rw [List.getLast?_append_of_ne_nil (y ++ extJson) (by decide : extTmp ≠ [])]
    rfl
  rw [h, h2] at h1
  exact absurd h1 (by decide)

theorem getIn_errno (es : Entries) (p : Path) (e : Errno) (h : getIn es p = .error e) :
    e = .ENOENT ∨ e = .ENOTDIR := by
  induction p generalizing es with
  | nil => simp [getIn] at h
  | cons c rest ih =>
    simp only [getIn] at h
    cases hl : lookupE es c with
    | none => simp [hl] at h; exact Or.inl h.symm
    | some n =>
      cases n with
      | file d =>
        simp only [hl] at h
        by_cases hr : rest = []
        · simp [hr] at h
        · simp [hr] at h; exact Or.inr h.symm
      | dir sub =>
        simp only [hl] at h
        exact ih sub h

theorem kindAt_cases (es : Entries) (p : Path) :
    (∃ k, kindAt es p = .ok k) ∨ kindAt es p = .error .ENOENT ∨
      kindAt es p = .error .ENOTDIR := by
  cases h : kindAt es p with
  | ok k => exact Or.inl ⟨k, rfl⟩
  | error e =>
    rcases getIn_errno es p e ((kindAt_error _ _ _).mp h) with h' | h'
    · subst h'; exact Or.inr (Or.inl rfl)
    · subst h'; exact Or.inr (Or.inr rfl)

theorem storeInv_of_same_or_gone (r : Path) (w : Str → Str → Prop) (es es' : Entries)
    (hinv : StoreInv r w es)
    (h : ∀ q, kindAt es' q = kindAt es q ∨ kindAt es' q = .error .ENOENT) :
    StoreInv r w es' := by
  intro c n
  obtain ⟨i1, i2, i3⟩ := hinv c n
  rcases h (r ++ [c, n]) with e | e
  · rw [e]; exact ⟨i1, i2, i3⟩
  · rw [e]
    exact ⟨by simp, by simp, fun doc k _ hk => by cases hk⟩

theorem storeInv_mono (r : Path) (w w' : Str → Str → Prop) (es : Entries)
    (hinv : StoreInv r w es) (hw : ∀ c n, w c n → w' c n) : StoreInv r w' es := by
  intro c n
  obtain ⟨i1, i2, i3⟩ := hinv c n
  exact ⟨i1, i2, fun doc k h1 h2 => hw _ _ (i3 doc k h1 h2)⟩

/-- One call keeps the shape of the store, the written documents growing by the
document of the call if it is a `Write`. -/
theorem storeInv_step {V : Type} (cd : Codec V) (st : Driver × FS) (op : Op V)
    (w : Str → Str → Prop) (hd : st.1.dir ≠ []) (hop : op.plainWrite = true)
    (hinv : StoreInv (resolve st.2.cwd st.1.dir) w st.2.root) :
    (Op.step cd st op).1.dir = st.1.dir ∧ (Op.step cd st op).2.cwd = st.2.cwd ∧
    StoreInv (resolve st.2.cwd st.1.dir) (fun c n => w c n ∨ op.isWriteOf c n = true)
      (Op.step cd st op).2.root := by
  cases op with
  | write c' d' v =>
    simp only [Op.plainWrite, Bool.and_eq_true, decide_eq_true_eq] at hop
    obtain ⟨t1, t2, t3⟩ := write_transitions cd st.1 st.2 c' d' v hd hop.1 hop.2
    refine ⟨t1, t2, ?_⟩
    intro c n
    obtain ⟨i1, i2, i3⟩ := hinv c n
    simp only [Op.step]
    rcases t3 c n with e | e | ⟨⟨b, e⟩, ec, en⟩
    · rw [e]; exact ⟨i1, i2, fun doc k h1 h2 => Or.inl (i3 doc k h1 h2)⟩
    · rw [e]; exact ⟨by simp, by simp, fun doc k _ hk => by cases hk⟩
    · rw [e]
      refine ⟨by simp, by simp, fun doc k h1 _ => Or.inr ?_⟩
      rcases en with en | en
      · have : doc = d' := List.append_cancel_right (h1.symm.trans en)
        simp [Op.isWriteOf, ec, this]
      · exact absurd (h1.symm.trans en) (json_ne_tmp doc d')
  | read c doc v => exact ⟨rfl, rfl, storeInv_mono _ _ _ _ hinv (fun _ _ h => Or.inl h)⟩
  | readAll c => exact ⟨rfl, rfl, storeInv_mono _ _ _ _ hinv (fun _ _ h => Or.inl h)⟩
  | delete c doc =>
    obtain ⟨t1, t2, t3⟩ := delete_same_or_gone st.1 st.2 c doc
    exact ⟨t1, t2, storeInv_mono _ _ _ _ (storeInv_of_same_or_gone _ _ _ _ hinv t3)
      (fun _ _ h => Or.inl h)⟩
  | getOrCreateMutex c =>
    exact ⟨getOrCreateMutex_dir _ _, rfl, storeInv_mono _ _ _ _ hinv (fun _ _ h => Or.inl h)⟩

theorem storeInv_run {V : Type} (cd : Codec V) (ops : List (Op V)) (st : Driver × FS)
    (w : Str → Str → Prop) (hd : st.1.dir ≠ []) (hops : ∀ op ∈ ops, op.plainWrite = true)
    (hinv : StoreInv (resolve st.2.cwd st.1.dir) w st.2.root) :
    (run cd st ops).1.dir = st.1.dir ∧ (run cd st ops).2.cwd = st.2.cwd ∧
    StoreInv (resolve st.2.cwd st.1.dir)
      (fun c n => w c n ∨ ∃ op ∈ ops, op.isWriteOf c n = true) (run cd st ops).2.root := by
  induction ops generalizing st w with
  | nil => exact ⟨rfl, rfl, storeInv_mono _ _ _ _ hinv (fun _ _ h => Or.inl h)⟩
  | cons op rest ih =>
    obtain ⟨s1, s2, s3⟩ := storeInv_step cd st op w hd (hops op (by simp)) hinv
    have hd' : (Op.step cd st op).1.dir ≠ [] := by rw [s1]; exact hd
    rw [← s1, ← s2] at s3
    obtain ⟨r1, r2, r3⟩ := ih (Op.step cd st op) _ hd' (fun o ho => hops o (by simp [ho])) s3
    rw [s1, s2] at r3
    refine ⟨r1.trans s1, r2.trans s2, storeInv_mono _ _ _ _ r3 ?_⟩
    intro c n h
    rcases h with (h | h) | ⟨o, ho, h⟩
    · exact Or.inl h
    · exact Or.inr ⟨op, by simp, h⟩
    · exact Or.inr ⟨o, by simp [ho], h⟩

theorem storeInv_empty_root (r : Path) (es : Entries) (h : getIn es r = .ok (.dir [])) :
    StoreInv r (fun _ _ => False) es := by
  intro c n
  have e : kindAt es (r ++ [c, n]) = .error .ENOENT := by
    have hsplit : r ++ [c, n] = (r ++ [c]) ++ [n] := by simp
    rw [kindAt_error, hsplit, getIn_snoc, getIn_snoc, h]
    simp [lookupE]
  rw [e]
  exact ⟨by simp, by simp, fun doc k _ hk => by cases hk⟩

/-- In a store of the shape `StoreInv`, a document with plain names that is not
among the written ones is not found: `Read` fails with `ENOENT` and leaves `out`
alone, and `Delete` fails with a not-found error and leaves the file system as it
is. -/
theorem not_found_of_storeInv {V : Type} (cd : Codec V) (d : Driver) (fs : FS)
    (w : Str → Str → Prop) (c doc : Str) (hd : d.dir ≠ []) (hc : PlainName c)
    (hdoc : PlainName doc) (hinv : StoreInv (resolve fs.cwd d.dir) w fs.root)
    (hw : ¬ w c doc) :
    (∀ out : V, d.Read cd fs c doc out = (some (.sys .ENOENT), out)) ∧
    ∃ e, e.isNotFound = true ∧
      d.Delete fs c doc = (some e, (d.getOrCreateMutex c).2, fs) := by
  have hR := record_ne_nil d c doc hd
  have hRj : join [d.dir, c, doc] ++ extJson ≠ [] := by simp [extJson]
  have hP : resolve fs.cwd (join [d.dir, c]) = resolve fs.cwd d.dir ++ [c] :=
    resolve_join_plain fs.cwd _ _ hd hc
  have hRr : resolve fs.cwd (join [d.dir, c, doc]) = resolve fs.cwd d.dir ++ [c, doc] := by
    rw [resolve_record fs.cwd d c doc hd hdoc, hP]; simp
  have hRJ : resolve fs.cwd (join [d.dir, c, doc] ++ extJson) =
      resolve fs.cwd d.dir ++ [c, doc ++ extJson] := by
    rw [resolve_record_json fs.cwd d c doc hd hdoc, hP]; simp
  have hj : kindAt fs.root (resolve fs.cwd d.dir ++ [c, doc ++ extJson]) = .error .ENOENT := by
    obtain ⟨_, i2, i3⟩ := hinv c (doc ++ extJson)
    rcases kindAt_cases fs.root (resolve fs.cwd d.dir ++ [c, doc ++ extJson]) with
      ⟨k, h⟩ | h | h
    · exact absurd (i3 doc k rfl h) hw
    · exact h
    · exact absurd h i2
  have hjson : osStat fs (join [d.dir, c, doc] ++ extJson) = .error .ENOENT := by
    rw [osStat_eq fs _ hRj, hRJ]; exact hj
  have hread : readFile fs (join [d.dir, c, doc] ++ extJson) = .error .ENOENT := by
    rw [readFile_eq fs _ hRj, hRJ, hj]
  have hnode : fs.node (join [d.dir, c, doc] ++ extJson) = .error .ENOENT := by
    simp only [FS.node, hRj, if_false, hRJ]
    exact (kindAt_error _ _ _).mp hj
  have hrec : (∃ z, osStat fs (join [d.dir, c, doc]) = .ok (.file z)) ∨
      osStat fs (join [d.dir, c, doc]) = .error .ENOENT := by
    obtain ⟨i1, i2, _⟩ := hinv c doc
    rw [osStat_eq fs _ hR, hRr]
    rcases kindAt_cases fs.root (resolve fs.cwd d.dir ++ [c, doc]) with ⟨k, h⟩ | h | h
    · cases k with
      | file z => exact Or.inl ⟨z, h⟩
      | dir => exact absurd h i1
    · exact Or.inr h
    · exact absurd h i2
  have hT := deleteTarget_plain d c doc hd hc hdoc
  unfold deleteTarget at hT
  constructor
  · intro out
    simp only [Driver.Read, hc.1, hdoc.1, if_false]
    rcases hrec with ⟨z, hz⟩ | hen
    · rw [stat_of_ok fs _ _ hz]
      simp only [hread]
    · rw [stat_of_enoent fs _ hen, hjson]
  · simp only [Driver.Delete, getOrCreateMutex_dir]
    rw [hT]
    rcases hrec with ⟨z, hz⟩ | hen
    · refine ⟨.sys .ENOENT, rfl, ?_⟩
      rw [stat_of_ok fs _ _ hz]
      simp only [osRemove, hnode]
    · refine ⟨.unableToFind, rfl, ?_⟩
      rw [stat_of_enoent fs _ hen, hjson]

/-- C4, as the code has it.  Start from a root directory that exists and is
empty, with the driver that `New` builds, and make any calls in which every
`Write` has plain names as collection and document.  Then for plain names `c` and
`doc` such that no `Write(c, doc, _)` is among the calls, `Read(c, doc, out)`
fails with `ENOENT` and leaves `out` alone, and `Delete(c, doc)` fails with a
not-found error and leaves the file system as it is. -/
theorem unwritten_document_not_found {V : Type} (cd : Codec V) (dir : Str)
    (log : Option Logger) (fs0 : FS) (ops : List (Op V)) (c doc : Str)
    (hempty : fs0.node dir = .ok (.dir []))
    (hops : ∀ op ∈ ops, op.plainWrite = true)
    (hnw : ∀ op ∈ ops, op.isWriteOf c doc = false)
    (hc : PlainName c) (hdoc : PlainName doc) :
    (∀ out : V, (run cd (freshDriver dir log, fs0) ops).1.Read cd
        (run cd (freshDriver dir log, fs0) ops).2 c doc out = (some (.sys .ENOENT), out)) ∧
    ∃ e, e.isNotFound = true ∧
      (run cd (freshDriver dir log, fs0) ops).1.Delete
          (run cd (freshDriver dir log, fs0) ops).2 c doc =
        (some e, ((run cd (freshDriver dir log, fs0) ops).1.getOrCreateMutex c).2,
          (run cd (freshDriver dir log, fs0) ops).2) := by
  have hd : dir ≠ [] := by
    intro e
    subst e
    simp [FS.node] at hempty
  have h0 : StoreInv (resolve fs0.cwd dir) (fun _ _ => False) fs0.root := by
    apply storeInv_empty_root
    simpa [FS.node, hd] using hempty
  obtain ⟨r1, r2, r3⟩ := storeInv_run cd ops (freshDriver dir log, fs0) _ hd hops h0
  have hd' : (run cd (freshDriver dir log, fs0) ops).1.dir ≠ [] := by rw [r1]; exact hd
  apply not_found_of_storeInv cd _ _ _ c doc hd' hc hdoc
  · rw [r1, r2]; exact r3
  · rintro (h | ⟨op, hop, h⟩)
    · exact h
    · rw [hnw op hop] at h
      cases h

/-- C4 fails as stated.  From the empty root of `main`, after `Write("a", "b", v)`
no `Write("a", "", _)` has been performed, yet `Delete("a", "")` returns no error
and removes the collection with its document.  After `Write("a/b", "x", v)` no
`Write("a", "b", _)` has been performed, yet `Delete("a", "b")` returns no error
and removes the directory `a/b` with the document in it.  And after
`Write("a", "b", v)` neither `Write("a", "./b", _)` nor `Write("./a", "b", _)` has
been performed, yet `Read` of these pairs returns no error and the value. -/
theorem unwritten_pair_is_found :
    (((run strCodec (dotDriver, homeFS) [.write "a".toList "b".toList "V".toList]).1.Delete
        (run strCodec (dotDriver, homeFS) [.write "a".toList "b".toList "V".toList]).2
        "a".toList []).1 = none ∧
      osStat ((run strCodec (dotDriver, homeFS)
          [.write "a".toList "b".toList "V".toList]).1.Delete
        (run strCodec (dotDriver, homeFS) [.write "a".toList "b".toList "V".toList]).2
        "a".toList []).2.2 "a/b.json".toList = .error .ENOENT) ∧
    (((run strCodec (dotDriver, homeFS) [.write "a/b".toList "x".toList "V".toList]).1.Delete
        (run strCodec (dotDriver, homeFS) [.write "a/b".toList "x".toList "V".toList]).2
        "a".toList "b".toList).1 = none ∧
      osStat (run strCodec (dotDriver, homeFS) [.write "a/b".toList "x".toList "V".toList]).2
        "a/b/x.json".toList = .ok (.file "V\n".toList) ∧
      osStat ((run strCodec (dotDriver, homeFS)
          [.write "a/b".toList "x".toList "V".toList]).1.Delete
        (run strCodec (dotDriver, homeFS) [.write "a/b".toList "x".toList "V".toList]).2
        "a".toList "b".toList).2.2 "a/b/x.json".toList = .error .ENOENT) ∧
    (run strCodec (dotDriver, homeFS) [.write "a".toList "b".toList "V".toList]).1.Read strCodec
      (run strCodec (dotDriver, homeFS) [.write "a".toList "b".toList "V".toList]).2
      "a".toList "./b".toList [] = (none, "V".toList) ∧
    (run strCodec (dotDriver, homeFS) [.write "a".toList "b".toList "V".toList]).1.Read strCodec
      (run strCodec (dotDriver, homeFS) [.write "a".toList "b".toList "V".toList]).2
      "./a".toList "b".toList [] = (none, "V".toList) := by
  decide

theorem unwritten_document_not_found_witness :
    (run strCodec (freshDriver ".".toList none, homeFS)
        [.write "a".toList "b".toList "V".toList, .delete "a".toList []]).1.Read strCodec
      (run strCodec (freshDriver ".".toList none, homeFS)
        [.write "a".toList "b".toList "V".toList, .delete "a".toList []]).2
      "a".toList "x".toList "old".toList = (some (.sys .ENOENT), "old".toList) :=
  (unwritten_document_not_found strCodec ".".toList none homeFS
    [.write "a".toList "b".toList "V".toList, .delete "a".toList []] "a".toList "x".toList
    rfl (by decide) (by decide) (by decide) (by decide)).1 "old".toList

/-! ## ReadAll after writing (C7) -/

theorem snoc_ne_of_ne (p : Path) (a b : Str) (h : a ≠ b) : ¬ (p ++ [a]) <+: (p ++ [b]) :=
  fun hp => h (snoc_prefix_snoc p a b hp)

/-- What a `Write` without error has done inside the collection directory, for a
document name without separator: the directory exists, the file of the document
holds the encoding, the temporary file is gone and every other name is as
before. -/
theorem write_effect {V : Type} (cd : Codec V) (d : Driver) (fs : FS) (c doc : Str) (v : V)
    (hd : d.dir ≠ []) (hdoc : '/' ∉ doc) (hw : (d.Write cd fs c doc v).1 = none) :
    (d.Write cd fs c doc v).2.1.dir = d.dir ∧ (d.Write cd fs c doc v).2.2.cwd = fs.cwd ∧
    kindAt (d.Write cd fs c doc v).2.2.root (resolve fs.cwd (join [d.dir, c])) = .ok .dir ∧
    (∃ b, encoding cd v = some b ∧
      kindAt (d.Write cd fs c doc v).2.2.root
        (resolve fs.cwd (join [d.dir, c]) ++ [doc ++ extJson]) = .ok (.file b)) ∧
    kindAt (d.Write cd fs c doc v).2.2.root
      (resolve fs.cwd (join [d.dir, c]) ++ [doc ++ extJson ++ extTmp]) = .error .ENOENT ∧
    ∀ n, n ≠ doc ++ extJson → n ≠ doc ++ extJson ++ extTmp →
      kindAt (d.Write cd fs c doc v).2.2.root (resolve fs.cwd (join [d.dir, c]) ++ [n]) =
        kindAt fs.root (resolve fs.cwd (join [d.dir, c]) ++ [n]) := by
  have hFp := fun cwd => resolve_fnlPath cwd d c doc hd hdoc
  have hTp := fun cwd => resolve_tmpPath cwd d c doc hd hdoc
  have hT := tmpPath_ne_nil d c doc
  have hft : doc ++ extJson ++ extTmp ≠ doc ++ extJson :=
    append_ext_ne (doc ++ extJson) extTmp (by decide)
  by_cases hc : c = []
  · simp [Driver.Write, hc] at hw
  by_cases hdn : doc = []
  · simp [Driver.Write, hc, hdn] at hw
  simp only [Driver.Write, hc, hdn, if_false, getOrCreateMutex_dir] at hw ⊢
  have hfold : join [join [d.dir, c], doc ++ extJson] = fnlPath d c doc := rfl
  simp only [hfold] at hw ⊢
  cases h1 : osMkdirAll fs (join [d.dir, c]) with
  | error e => simp [h1] at hw
  | ok fs1 =>
    obtain ⟨hcwd1, hm⟩ := osMkdirAll_ok fs fs1 _ h1
    cases hmar : cd.marshalIndent v with
    | none => simp [h1, hmar] at hw
    | some b =>
      cases h2 : writeFile fs1 (fnlPath d c doc ++ extTmp) (b ++ ['\n']) with
      | error e => simp [h1, hmar, h2] at hw
      | ok fs2 =>
        obtain ⟨hcwd2, hp2⟩ := writeFile_ok fs1 fs2 _ _ h2
        rw [hcwd1, hTp] at hp2
        have hnode : fs2.node (fnlPath d c doc ++ extTmp) = .ok (.file (b ++ ['\n'])) := by
          simp only [FS.node, hT, if_false, hcwd2, hcwd1, hTp]
          exact putIn_get _ _ _ _ hp2
        cases h3 : osRename fs2 (fnlPath d c doc ++ extTmp) (fnlPath d c doc) with
        | error e => simp [h1, hmar, h2, h3] at hw
        | ok fs3 =>
          have hne : resolve fs2.cwd (fnlPath d c doc ++ extTmp) ≠
              resolve fs2.cwd (fnlPath d c doc) := by
            rw [hFp, hTp]
            intro e
            exact hft (snoc_prefix_snoc _ _ _ (by rw [e]))
          obtain ⟨hcwd3, hp3⟩ := osRename_ok fs2 fs3 _ _ _ hnode hne h3
          rw [hcwd2, hcwd1, hFp, hTp] at hp3
          have hget2 := putIn_get _ _ _ _ hp2
          have frame : ∀ q, ¬ (resolve fs.cwd (join [d.dir, c]) ++ [doc ++ extJson]) <+: q →
              ¬ (resolve fs.cwd (join [d.dir, c]) ++ [doc ++ extJson ++ extTmp]) <+: q →
              kindAt fs3.root q = kindAt fs1.root q := by
            intro q hq1 hq2
            rw [putIn_frame _ _ _ _ hp3 q hq1, dropIn_frame _ _ q hq2,
              putIn_frame _ _ _ _ hp2 q hq2]
          simp only [h2, h3]
          refine ⟨getOrCreateMutex_dir d c, hcwd3.trans (hcwd2.trans hcwd1), ?_, ?_, ?_, ?_⟩
          · rw [frame _ ( not_snoc_prefix _ _) ( not_snoc_prefix _ _)]
            exact (mkdirAllIn_spec _ _ _ hm _).1 (List.prefix_refl _)
          · exact ⟨b ++ ['\n'], by simp [encoding, hmar],
              (kindAt_ok_file _ _ _).mpr (putIn_get _ _ _ _ hp3)⟩
          · rw [putIn_frame _ _ _ _ hp3 _ (snoc_ne_of_ne _ _ _ hft.symm), kindAt_error]
            have := dropIn_gone (resolve fs.cwd (join [d.dir, c]) ++ [doc ++ extJson ++ extTmp])
              (by simp) fs2.root _ hget2 []
            simpa using this
          · intro n hn1 hn2
            rw [frame _ (snoc_ne_of_ne _ _ _ (Ne.symm hn1)) (snoc_ne_of_ne _ _ _ (Ne.symm hn2))]
            exact (mkdirAllIn_spec _ _ _ hm _).2 ( not_snoc_prefix _ _)

theorem writeMany_cons {V : Type} (cd : Codec V) (d : Driver) (fs : FS) (c doc : Str) (v : V)
    (rest : List (Str × V)) (h : (d.writeMany cd fs c ((doc, v) :: rest)).1 = none) :
    (d.Write cd fs c doc v).1 = none ∧
    d.writeMany cd fs c ((doc, v) :: rest) =
      (d.Write cd fs c doc v).2.1.writeMany cd (d.Write cd fs c doc v).2.2 c rest := by
  simp only [Driver.writeMany] at h ⊢
  cases hW : d.Write cd fs c doc v with
  | mk e st =>
    obtain ⟨d1, fs1⟩ := st
    cases e with
    | none => exact ⟨rfl, rfl⟩
    | some e => simp [hW] at h

/-- What a run of `Write` calls without error has done inside the collection
directory, for distinct document names without separator, when there were only
`.json` files before: each document's file holds its encoding, all other names
are as before, and the directory exists if anything was written. -/
theorem writeMany_effect {V : Type} (cd : Codec V) (c : Str) (writes : List (Str × V)) :
    ∀ (d : Driver) (fs : FS), d.dir ≠ [] →
      DirJson fs.root (resolve fs.cwd (join [d.dir, c])) →
      (∀ p ∈ writes, '/' ∉ p.1) → (writes.map Prod.fst).Nodup →
      (d.writeMany cd fs c writes).1 = none →
        (d.writeMany cd fs c writes).2.1.dir = d.dir ∧
        (d.writeMany cd fs c writes).2.2.cwd = fs.cwd ∧
        (∀ n, (∀ p ∈ writes, n ≠ p.1 ++ extJson) →
          kindAt (d.writeMany cd fs c writes).2.2.root
              (resolve fs.cwd (join [d.dir, c]) ++ [n]) =
            kindAt fs.root (resolve fs.cwd (join [d.dir, c]) ++ [n])) ∧
        (∀ p ∈ writes, ∃ b, encoding cd p.2 = some b ∧
          kindAt (d.writeMany cd fs c writes).2.2.root
            (resolve fs.cwd (join [d.dir, c]) ++ [p.1 ++ extJson]) = .ok (.file b)) ∧
        (writes ≠ [] →
          kindAt (d.writeMany cd fs c writes).2.2.root (resolve fs.cwd (join [d.dir, c])) =
            .ok .dir) := by
  induction writes with
  | nil =>
    intro d fs _ _ _ _ _
    exact ⟨rfl, rfl, fun _ _ => rfl, fun p hp => by simp at hp, fun h => absurd rfl h⟩
  | cons w rest ih =>
    obtain ⟨doc, v⟩ := w
    intro d fs hd hj hsl hnd hok
    obtain ⟨hw, hrun⟩ := writeMany_cons cd d fs c doc v rest hok
    have hdoc : '/' ∉ doc := hsl (doc, v) (by simp)
    obtain ⟨e1, e2, e3, ⟨b, hb, e4⟩, e5, e6⟩ := write_effect cd d fs c doc v hd hdoc hw
    have hnd' : doc ∉ rest.map Prod.fst ∧ (rest.map Prod.fst).Nodup := by
      rw [List.map_cons] at hnd
      exact List.nodup_cons.mp hnd
    rw [hrun] at hok ⊢
    have hd1 : (d.Write cd fs c doc v).2.1.dir ≠ [] := by rw [e1]; exact hd
    have hj1 : DirJson (d.Write cd fs c doc v).2.2.root
        (resolve (d.Write cd fs c doc v).2.2.cwd (join [(d.Write cd fs c doc v).2.1.dir, c])) := by
      rw [e1, e2]
      intro n
      by_cases hn1 : n = doc ++ extJson
      · exact Or.inr ⟨b, doc, hn1, by rw [hn1]; exact e4⟩
      · by_cases hn2 : n = doc ++ extJson ++ extTmp
        · exact Or.inl (by rw [hn2]; exact e5)
        · rw [e6 n hn1 hn2]; exact hj n
    obtain ⟨i1, i2, i3, i4, i5⟩ := ih _ _ hd1 hj1 (fun p hp => hsl p (by simp [hp])) hnd'.2 hok
    rw [e1, e2] at i3 i4 i5
    have htmp : kindAt fs.root
        (resolve fs.cwd (join [d.dir, c]) ++ [doc ++ extJson ++ extTmp]) = .error .ENOENT := by
      rcases hj (doc ++ extJson ++ extTmp) with h | ⟨b', doc', h, _⟩
      · exact h
      · exact absurd h.symm (json_ne_tmp doc' doc)
    have hhead : ∀ p ∈ rest, doc ++ extJson ≠ p.1 ++ extJson := by
      intro p hp heq
      have : doc = p.1 := List.append_cancel_right heq
      exact hnd'.1 (by rw [this]; exact List.mem_map_of_mem _ hp)
    refine ⟨i1.trans e1, i2.trans e2, ?_, ?_, ?_⟩
    · intro n hn
      rw [i3 n (fun p hp => hn p (by simp [hp]))]
      have hn1 : n ≠ doc ++ extJson := hn (doc, v) (by simp)
      by_cases hn2 : n = doc ++ extJson ++ extTmp
      · rw [hn2, e5, htmp]
      · exact e6 n hn1 hn2
    · intro p hp
      simp only [List.mem_cons] at hp
      rcases hp with rfl | hp
      · exact ⟨b, hb, by rw [i3 _ hhead]; exact e4⟩
      · exact i4 p hp
    · intro _
      by_cases hr : rest = []
      · subst hr
        simpa [Driver.writeMany] using e3
      · exact i5 hr

theorem kindAt_snoc_dir (es0 es : Entries) (p : Path) (n : Str)
    (h : getIn es0 p = .ok (.dir es)) :
    kindAt es0 (p ++ [n]) =
      match lookupE es n with
      | none => .error .ENOENT
      | some node => .ok node.kind := by
  unfold kindAt
  rw [getIn_snoc, h]
  cases hl : lookupE es n <;> simp [hl]

theorem lookupE_of_kind_file (es0 es : Entries) (p : Path) (n b : Str)
    (h : getIn es0 p = .ok (.dir es)) (hk : kindAt es0 (p ++ [n]) = .ok (.file b)) :
    lookupE es n = some (.file b) := by
  rw [kindAt_snoc_dir es0 es p n h] at hk
  cases hl : lookupE es n with
  | none => simp [hl] at hk
  | some node =>
    cases node with
    | file x => simp [hl, Node.kind] at hk; rw [hk]
    | dir sub => simp [hl, Node.kind] at hk

theorem lookupE_of_kind_enoent (es0 es : Entries) (p : Path) (n : Str)
    (h : getIn es0 p = .ok (.dir es)) (hk : kindAt es0 (p ++ [n]) = .error .ENOENT) :
    lookupE es n = none := by
  rw [kindAt_snoc_dir es0 es p n h] at hk
  cases hl : lookupE es n with
  | none => rfl
  | some node => simp [hl] at hk

/-- After `Write` calls without error for distinct document names without
separator, into a collection below whose path nothing existed, `ReadAll` returns
the encodings written, each once. -/
theorem readAll_after_writes {V : Type} (cd : Codec V) (d : Driver) (fs : FS) (c : Str)
    (writes : List (Str × V)) (hd : d.dir ≠ []) (hne : writes ≠ [])
    (hfresh : ∀ n, kindAt fs.root (resolve fs.cwd (join [d.dir, c]) ++ [n]) = .error .ENOENT)
    (hsl : ∀ p ∈ writes, '/' ∉ p.1) (hnd : (writes.map Prod.fst).Nodup)
    (hok : (d.writeMany cd fs c writes).1 = none) :
    ∃ records,
      (d.writeMany cd fs c writes).2.1.ReadAll (d.writeMany cd fs c writes).2.2 c =
        .ok records ∧
      (records.map some).Perm (writes.map (fun p => encoding cd p.2)) ∧
      records.length = writes.length := by
  have hc : c ≠ [] := by
    cases writes with
    | nil => exact absurd rfl hne
    | cons w rest =>
      obtain ⟨doc, v⟩ := w
      exact (write_success cd d fs c doc v hd (hsl (doc, v) (by simp))
        (writeMany_cons cd d fs c doc v rest hok).1).1
  obtain ⟨e1, e2, e3, e4, e5⟩ := writeMany_effect cd c writes d fs hd
    (fun n => Or.inl (hfresh n)) hsl hnd hok
  obtain ⟨es, hes⟩ := (kindAt_ok_dir _ _).mp (e5 hne)
  have hjoin : join [d.dir, c] ≠ [] := join_two_ne_nil _ _ (Or.inl hd)
  have hnode : (d.writeMany cd fs c writes).2.2.node
      (join [(d.writeMany cd fs c writes).2.1.dir, c]) = .ok (.dir es) := by
    simp only [FS.node, e1, e2, hjoin, if_false]
    exact hes
  have hinj : Function.Injective (fun s : Str => s ++ extJson) :=
    List.append_left_injective extJson
  have hnames : ∀ n, n ∈ entryNames es ↔ n ∈ (writes.map Prod.fst).map (fun s => s ++ extJson) := by
    intro n
    rw [mem_entryNames]
    constructor
    · intro hl
      by_contra hnot
      apply hl
      apply lookupE_of_kind_enoent _ es _ n hes
      rw [e3 n (fun p hp heq => hnot (by
        rw [heq]
        exact List.mem_map_of_mem _ (List.mem_map_of_mem _ hp)))]
      exact hfresh n
    · intro hn
      obtain ⟨doc, hdoc, rfl⟩ := List.mem_map.mp hn
      obtain ⟨p, hp, rfl⟩ := List.mem_map.mp hdoc
      obtain ⟨b, _, hk⟩ := e4 p hp
      rw [lookupE_of_kind_file _ es _ _ b hes hk]
      simp
  have hfile : ∀ p ∈ writes, ∃ b, encoding cd p.2 = some b ∧
      lookupE es (p.1 ++ extJson) = some (.file b) := by
    intro p hp
    obtain ⟨b, hb, hk⟩ := e4 p hp
    exact ⟨b, hb, lookupE_of_kind_file _ es _ _ b hes hk⟩
  have hplain : ∀ n ∈ entryNames es, PlainName n := by
    intro n hn
    obtain ⟨doc, hdoc, rfl⟩ := List.mem_map.mp ((hnames n).mp hn)
    obtain ⟨p, hp, rfl⟩ := List.mem_map.mp hdoc
    exact docJson_plain _ (hsl p hp)
  have hreg : ∀ n ∈ entryNames es, regularAt es n = true := by
    intro n hn
    obtain ⟨doc, hdoc, rfl⟩ := List.mem_map.mp ((hnames n).mp hn)
    obtain ⟨p, hp, rfl⟩ := List.mem_map.mp hdoc
    obtain ⟨b, _, hl⟩ := hfile p hp
    simp [regularAt, hl]
  have hread := (readAll_of_directory _ _ c es hc hnode hplain hreg).1
  have hperm : (entryNames es).Perm ((writes.map Prod.fst).map (fun s => s ++ extJson)) :=
    (List.perm_ext_iff_of_nodup (nodup_entryNames es) (hnd.map hinj)).mpr hnames
  have hmap : (((writes.map Prod.fst).map (fun s => s ++ extJson)).map (contentsOf es)).map some =
      writes.map (fun p => encoding cd p.2) := by
    simp only [List.map_map]
    apply List.map_congr_left
    intro p hp
    obtain ⟨b, hb, hl⟩ := hfile p hp
    simp [contentsOf, hl, hb]
  have hP : (((entryNames es).map (contentsOf es)).map some).Perm
      (writes.map (fun p => encoding cd p.2)) := by
    rw [← hmap]
    exact (hperm.map _).map _
  refine ⟨_, hread, hP, ?_⟩
  have := hP.length_eq
  simpa using this

/-- C7, as the code has it, for a non-empty collection name.  When the collection
directory is a directory with entries `es`, all of them regular files with plain
names, `ReadAll` succeeds and returns the contents of the files in the order of
the listing `entryNames es`, which has every entry of the directory exactly once;
for a directory without entries the result is the empty sequence.  And after one
or more `Write` calls that all return without error, for pairwise distinct
document names without path separator, into a collection below whose path nothing
existed before, `ReadAll` succeeds and its records are the encodings written (each
with its newline), each once, as many as there were documents. -/
theorem readAll_returns_every_file {V : Type} (cd : Codec V) (d : Driver) (fs : FS) (c : Str)
    (es : Entries) (writes : List (Str × V)) (hc : c ≠ []) :
    (fs.node (join [d.dir, c]) = .ok (.dir es) →
      (∀ n ∈ entryNames es, PlainName n) →
      (∀ n ∈ entryNames es, regularAt es n = true) →
        d.ReadAll fs c = .ok ((entryNames es).map (contentsOf es)) ∧
        (entryNames es).Nodup ∧
        (∀ n, n ∈ entryNames es ↔ lookupE es n ≠ none) ∧
        (es = [] → d.ReadAll fs c = .ok [])) ∧
    (d.dir ≠ [] → writes ≠ [] →
      (∀ n, kindAt fs.root (resolve fs.cwd (join [d.dir, c]) ++ [n]) = .error .ENOENT) →
      (∀ p ∈ writes, '/' ∉ p.1) → (writes.map Prod.fst).Nodup →
      (d.writeMany cd fs c writes).1 = none →
        ∃ records,
          (d.writeMany cd fs c writes).2.1.ReadAll (d.writeMany cd fs c writes).2.2 c =
            .ok records ∧
          (records.map some).Perm (writes.map (fun p => encoding cd p.2)) ∧
          records.length = writes.length) :=
  ⟨fun hdir hplain hfiles => readAll_of_directory d fs c es hc hdir hplain hfiles,
    fun hd hne hfresh hsl hnd hok => readAll_after_writes cd d fs c writes hd hne hfresh hsl hnd hok⟩

theorem readAll_returns_every_file_witness :
    dotDriver.ReadAll
        (run strCodec (dotDriver, homeFS)
          [.write "c".toList "b".toList "2".toList, .write "c".toList "a".toList "1".toList]).2
        "c".toList = .ok ["1\n".toList, "2\n".toList] ∧
    ∃ records,
      (dotDriver.writeMany strCodec homeFS "c".toList
          [("b".toList, "2".toList), ("a".toList, "1".toList)]).2.1.ReadAll
        (dotDriver.writeMany strCodec homeFS "c".toList
          [("b".toList, "2".toList), ("a".toList, "1".toList)]).2.2 "c".toList = .ok records ∧
      (records.map some).Perm
        ([("b".toList, "2".toList), ("a".toList, "1".toList)].map
          (fun p => encoding strCodec p.2)) ∧
      records.length = [("b".toList, "2".toList), ("a".toList, "1".toList)].length :=
  ⟨((readAll_returns_every_file strCodec dotDriver
      (run strCodec (dotDriver, homeFS)
        [.write "c".toList "b".toList "2".toList, .write "c".toList "a".toList "1".toList]).2
      "c".toList [("b.json".toList, .file "2\n".toList), ("a.json".toList, .file "1\n".toList)]
      [] (by decide)).1 rfl (by decide) (by decide)).1,
    (readAll_returns_every_file strCodec dotDriver homeFS "c".toList []
      [("b".toList, "2".toList), ("a".toList, "1".toList)] (by decide)).2
      (by decide) (by decide) (fun n => by simp [homeFS, kindAt, getIn, lookupE, resolve, join,
        clean, splitSlash, isRooted, cleanStep, joinSlash, dotDriver, freshDriver, resolveStep,
        dot, dotdot])
      (by decide) (by decide) (by decide)⟩

/-- C7 fails as stated.  `Write("c", "a", v)` and `Write("c", "./a", w)` are two
writes with distinct document names into a fresh collection (`c` does not exist
before), and both return without error; yet `ReadAll("c")` returns one record,
the encoding of `w`, because both names are cleaned to the file `c/a.json`.  And
for the empty collection name the path `<root>/<c>` is the root directory itself:
in a store whose root holds one regular file and nothing else it is a directory
all of whose entries are regular files, and `ReadAll("")` returns the error
`missing collection` and no records. -/
theorem readAll_misses_written_document :
    (osStat homeFS (join [dotDriver.dir, "c".toList]) = .error .ENOENT ∧
      "a".toList ≠ "./a".toList ∧
      (dotDriver.writeMany strCodec homeFS "c".toList
        [("a".toList, "1".toList), ("./a".toList, "2".toList)]).1 = none ∧
      (dotDriver.writeMany strCodec homeFS "c".toList
          [("a".toList, "1".toList), ("./a".toList, "2".toList)]).2.1.ReadAll
        (dotDriver.writeMany strCodec homeFS "c".toList
          [("a".toList, "1".toList), ("./a".toList, "2".toList)]).2.2 "c".toList =
        .ok ["2\n".toList]) ∧
    (osStat flatFS (join [dotDriver.dir, []]) = .ok .dir ∧
      readDir flatFS (join [dotDriver.dir, []]) = .ok ["f".toList] ∧
      readFile flatFS (join [join [dotDriver.dir, []], "f".toList]) = .ok "1".toList ∧
      dotDriver.ReadAll flatFS [] = .error .missingCollection) := by
  decide

end JSONDb
